import Mathlib

/-!
Verification development for the gipam IPAM engine.

The Go sources are shallowly embedded: IPv4/IPv6 CIDR blocks become a
family tag plus numeric address and mask length; Go slices become lists;
Go maps become association lists (Go map iteration order is unspecified,
the association list order is a deterministic refinement of it);
allocation tree nodes, which the Go code links with raw parent/child
pointers, are identified by their CIDR block, which is unique among the
live nodes of a database; functions from the Go standard library
(time.Now, SHA-1, CIDR text parsing) enter as explicit parameters.
Machine integers are modelled as Nat with explicit masking arithmetic.
-/

namespace Gipam

/-! ## Address families and CIDR blocks (database/db.go, type IPNet) -/

inductive Fam where
  | v4
  | v6
deriving DecidableEq

/-- Width in bits of an address of this family. -/
def Fam.bits : Fam → Nat
  | .v4 => 32
  | .v6 => 128

instance : BEq Fam := ⟨fun a b => decide (a = b)⟩

/-- An IP address: family tag plus numeric value below 2^bits.
The Go code keys indexes by the canonical textual form of the address;
distinct (fam, addr) pairs have distinct canonical strings, so the pair
itself serves as the key. -/
structure IPAddr where
  fam : Fam
  addr : Nat
deriving DecidableEq

/-- A CIDR block, the model of database.IPNet: family, numeric address
and mask length.  net.ParseCIDR stores the masked network address, so a
well-formed value has its host bits zero (see IPNet.ok). -/
structure IPNet where
  fam : Fam
  addr : Nat
  len : Nat
deriving DecidableEq

/-- Clear the low (bits - len) bits of a, the model of IP.Mask. -/
def maskAddr (bits len a : Nat) : Nat :=
  a / 2 ^ (bits - len) * 2 ^ (bits - len)

/-- The network address of the block: its IP masked by its own mask. -/
def IPNet.netAddr (n : IPNet) : Nat :=
  maskAddr n.fam.bits n.len n.addr

/-- Well-formedness: mask length within the family width, address in
range and canonical (host bits zero), as net.ParseCIDR produces. -/
def IPNet.ok (n : IPNet) : Prop :=
  n.len ≤ n.fam.bits ∧ n.addr < 2 ^ n.fam.bits ∧ n.addr = n.netAddr

instance (n : IPNet) : Decidable n.ok := by
  unfold IPNet.ok; infer_instance

/-- IPNet.ContainsNet from database/db.go: same family, its mask no
longer than the other's, and both network addresses agree under the
shorter mask.  Non-strict: a block contains itself. -/
def IPNet.containsNet (n n2 : IPNet) : Bool :=
  n.fam == n2.fam && decide (n.len ≤ n2.len) &&
    decide (maskAddr n.fam.bits n.len n.addr = maskAddr n.fam.bits n.len n2.addr)

/-- IPNet.Equal from database/db.go: mutual containment. -/
def IPNet.equalNet (n n2 : IPNet) : Bool :=
  n.containsNet n2 && n2.containsNet n

/-- net.IPNet.Contains for an address, as used through alloc.Net.Contains:
families agree and the address masked by the block mask equals the
network address. -/
def IPNet.containsIP (n : IPNet) (ip : IPAddr) : Bool :=
  n.fam == ip.fam &&
    decide (maskAddr n.fam.bits n.len ip.addr = maskAddr n.fam.bits n.len n.addr)

/-- The 16-byte (To16) numeric form: v4 addresses map to ::ffff:a.b.c.d. -/
def to16 (fam : Fam) (a : Nat) : Nat :=
  match fam with
  | .v4 => 0xffff * 2 ^ 32 + a
  | .v6 => a

/-- IPNet.Less from database/db.go, transcribed with its dead branch:
the source reads both mask sizes from n (`o1, _ := n.Mask.Size();
o2, _ := n.Mask.Size()`), so the length comparison below never fires and
ordering falls through to the bytewise comparison of the masked
addresses in 16-byte form. -/
def IPNet.less (n n2 : IPNet) : Bool :=
  if n.fam ≠ n2.fam then n.fam == .v4
  else
    let o1 := n.len
    let o2 := n.len
    if o1 < o2 then true
    else decide (to16 n.fam n.netAddr < to16 n2.fam n2.netAddr)

/-- ishost from database/db.go: the mask covers the whole address. -/
def ishost (n : IPNet) : Bool :=
  n.len == n.fam.bits

/-- hostToNet from database/db.go: the /32 or /128 block of an address. -/
def hostToNet (i : IPAddr) : IPNet :=
  ⟨i.fam, i.addr, i.fam.bits⟩

/-- FirstAddr from database/db.go: the masked network address. -/
def IPNet.firstAddr (n : IPNet) : IPAddr :=
  ⟨n.fam, n.netAddr⟩

/-- LastAddr from database/db.go: the network address with all host
bits set to one. -/
def IPNet.lastAddr (n : IPNet) : IPAddr :=
  ⟨n.fam, n.netAddr + 2 ^ (n.fam.bits - n.len) - 1⟩

/-! ## Zone serials (database/db.go, type ZoneSerial) -/

/-- A calendar date, the result of time.Time.Date() on a value truncated
to a day.  The zero time.Time has date 1-1-1. -/
structure Date where
  y : Nat
  m : Nat
  d : Nat
deriving DecidableEq

/-- The zero time.Time's date. -/
def Date.zero : Date := ⟨1, 1, 1⟩

/-- time.Time.Before on day-truncated values: lexicographic on (y,m,d). -/
def Date.before (a b : Date) : Bool :=
  decide (a.y < b.y) ||
    (a.y == b.y && (decide (a.m < b.m) || (a.m == b.m && decide (a.d < b.d))))

/-- ZoneSerial from database/db.go: a day-truncated date and a counter. -/
structure ZoneSerial where
  date : Date
  inc : Nat
deriving DecidableEq

/-- Left-pad the decimal form of n to width w with zeros. -/
def padNum (w n : Nat) : String :=
  let s := toString n
  String.mk (List.replicate (w - s.length) '0') ++ s

/-- ZoneSerial.String from database/db.go: YYYYMMDD then the counter,
zero-padded to two digits. -/
def ZoneSerial.str (z : ZoneSerial) : String :=
  padNum 4 z.date.y ++ padNum 2 z.date.m ++ padNum 2 z.date.d ++ padNum 2 z.inc

/-- The error kinds surfaced by the embedded operations. -/
inductive Err where
  | serialOverflow
  | hostAddressDisallowed
  | alreadyAllocated
  | notFound
  | noAddresses
  | addressInUse
  | alreadyExists
  | arpaRequiresNS
  | arpaRequiresEmail
  | nilDeref
deriving DecidableEq

/-- ZoneSerial.Inc from database/db.go.  today stands for
time.Now().UTC().Truncate(24h); the stored date is compared to it
component-wise.  Same day: the counter advances, overflowing (a Go
panic) at 99.  Any other day: the date resets to today, counter 0. -/
def ZoneSerial.incr (today : Date) (z : ZoneSerial) : Except Err ZoneSerial :=
  if z.date = today then
    if z.inc = 99 then .error .serialOverflow
    else .ok ⟨z.date, z.inc + 1⟩
  else .ok ⟨today, 0⟩

/-- n consecutive Inc calls on the same day, stopping at the first failure. -/
def ZoneSerial.incrN (today : Date) : Nat → ZoneSerial → Except Err ZoneSerial
  | 0, z => .ok z
  | n + 1, z => do ZoneSerial.incrN today n (← z.incr today)

/-- ZoneSerial.Before from the later database generation (src/unnamed/part_001):
`if z.date.Before(oz.date) { return true }; return z.inc < oz.inc`.
Note the counter comparison runs whenever the first date is not strictly
earlier, even when it is strictly later. -/
def ZoneSerial.beforeZ (z oz : ZoneSerial) : Bool :=
  if z.date.before oz.date then true
  else decide (z.inc < oz.inc)

/-- The zero value of ZoneSerial: Go zero time.Time (date 1-1-1), counter 0. -/
def ZoneSerial.zero : ZoneSerial := ⟨Date.zero, 0⟩

/-! ## Association lists, the model of Go maps.

Go map iteration order is unspecified; the list order is a fixed
deterministic refinement of it.  Assignment replaces in place, delete
removes the key. -/

def lookupA {κ α : Type} [DecidableEq κ] (k : κ) : List (κ × α) → Option α
  | [] => none
  | e :: r => if e.1 = k then some e.2 else lookupA k r

def insertA {κ α : Type} [DecidableEq κ] (k : κ) (v : α) : List (κ × α) → List (κ × α)
  | [] => [(k, v)]
  | e :: r => if e.1 = k then (k, v) :: r else e :: insertA k v r

def eraseA {κ α : Type} [DecidableEq κ] (k : κ) : List (κ × α) → List (κ × α)
  | [] => []
  | e :: r => if e.1 = k then r else e :: eraseA k r

/-! ## Domains (database/db.go, type Domain) -/

/-- Domain from database/db.go.  The private name field is set only by
Load; durations are kept in whole seconds (the SOA text prints
int(d.Seconds())). -/
structure Domain where
  name : String
  primaryNS : String
  email : String
  refresh : Nat
  retry : Nat
  expiry : Nat
  nxttl : Nat
  serial : ZoneSerial
  lastHash : String
deriving DecidableEq

/-- strings.Replace(s, "@", ".", -1): every @ becomes a dot. -/
def replaceAtSign (s : String) : String :=
  String.mk (s.data.map (fun c => if c = '@' then '.' else c))

/-- Domain.SOA from database/db.go: fall back to ns1.<name> and
hostmaster.<name> built from the private name field; the email has @
replaced by a dot before the emptiness test. -/
def Domain.soa (d : Domain) : String :=
  let ns := if d.primaryNS = "" then "ns1." ++ d.name else d.primaryNS
  let email0 := replaceAtSign d.email
  let email := if email0 = "" then "hostmaster." ++ d.name else email0
  "@ IN SOA " ++ ns ++ ". " ++ email ++ ". ( " ++ d.serial.str ++ " " ++
    toString d.refresh ++ " " ++ toString d.retry ++ " " ++
    toString d.expiry ++ " " ++ toString d.nxttl ++ " )"

/-- DB.AddDomain from database/db.go, acting on the Domains map.
isCIDR stands for the net.ParseCIDR success test on the name.  The
Domain literal in the source sets only the SOA fields: the private name
field stays empty, and ns/email are stored as given (possibly empty). -/
def addDomain (isCIDR : String → Bool) (doms : List (String × Domain))
    (name ns email : String) (refresh retry expiry nxttl : Nat) :
    Except Err (List (String × Domain)) :=
  if (lookupA name doms).isSome then .error .alreadyExists
  else if isCIDR name && ns = "" then .error .arpaRequiresNS
  else if isCIDR name && email = "" then .error .arpaRequiresEmail
  else
    let refresh := if refresh = 0 then 3600 else refresh
    let retry := if retry = 0 then 900 else retry
    let expiry := if expiry = 0 then 1814400 else expiry
    let nxttl := if nxttl = 0 then 600 else nxttl
    .ok (insertA name ⟨"", ns, email, refresh, retry, expiry, nxttl, .zero, ""⟩ doms)

/-- DB.AddDomain from the newest generation (src/unnamed/part_001 lines
884-934): identical checks, but missing ns and email default to
ns1.<name> and hostmaster.<name> before the Domain is stored, and the
name is stored on the Domain. -/
def addDomainV3 (isCIDR : String → Bool) (doms : List (String × Domain))
    (name ns email : String) (refresh retry expiry nxttl : Nat) :
    Except Err (List (String × Domain)) :=
  if (lookupA name doms).isSome then .error .alreadyExists
  else if isCIDR name && ns = "" then .error .arpaRequiresNS
  else if isCIDR name && email = "" then .error .arpaRequiresEmail
  else
    let ns := if ns = "" then "ns1." ++ name else ns
    let email := if email = "" then "hostmaster." ++ name else email
    let refresh := if refresh = 0 then 3600 else refresh
    let retry := if retry = 0 then 900 else retry
    let expiry := if expiry = 0 then 1814400 else expiry
    let nxttl := if nxttl = 0 then 600 else nxttl
    .ok (insertA name ⟨name, ns, email, refresh, retry, expiry, nxttl, .zero, ""⟩ doms)

/-! ## Zone export serial gating (export/bind9/bind9.go ExportZone) -/

/-- The part of a Domain that ExportZone reads and writes.  The rendered
zone text is a function of the database and the domain settings, of
which only the serial changes between the two renders inside one
ExportZone call, so the renderer is abstracted as a deterministic
function of the serial; the SHA-1/base64 content hash is abstracted as
hashf. -/
structure ExpState where
  serial : ZoneSerial
  lastHash : String
deriving DecidableEq

/-- ExportZone from export/bind9/bind9.go, after the domain lookup:
render, compare the content hash against the stored one, and on
mismatch increment the serial, re-render and store the new hash. -/
def exportZone (today : Date) (hashf : String → String)
    (render : ZoneSerial → String) (st : ExpState) :
    Except Err (String × ExpState) :=
  let zone := render st.serial
  if hashf zone ≠ st.lastHash then do
    let s2 ← st.serial.incr today
    let zone2 := render s2
    .ok (zone2, ⟨s2, hashf zone2⟩)
  else .ok (zone, st)

/-- ExportZone from src/unnamed/part_012 (lines 13-35): same logic with
an extra force flag that skips the hash short-circuit. -/
def exportZoneV2 (today : Date) (hashf : String → String)
    (render : ZoneSerial → String) (force : Bool) (st : ExpState) :
    Except Err (String × ExpState) :=
  let zone := render st.serial
  if !force && hashf zone == st.lastHash then .ok (zone, st)
  else do
    let s2 ← st.serial.incr today
    let zone2 := render s2
    .ok (zone2, ⟨s2, hashf zone2⟩)

/-! ## Reverse-zone PTR owner labels (export/bind9/bind9.go arpaHost,
identical in export/bind9/reverse.go) -/

/-- Byte i (big-endian, 0-based) of a 4-byte address. -/
def byte4 (a i : Nat) : Nat := a / 2 ^ (8 * (3 - i)) % 256

/-- Byte i (big-endian, 0-based) of a 16-byte address. -/
def byte16 (a i : Nat) : Nat := a / 2 ^ (8 * (15 - i)) % 256

/-- strconv.FormatInt(n, 16): lowercase hexadecimal, no padding. -/
def hexStr (n : Nat) : String := String.mk (Nat.toDigits 16 n)

/-- arpaHost from export/bind9/bind9.go: walk the address bytes from
index start-1 down to end where end = ones/8 and
start = end + (bits-ones)/8.  v4 bytes print in decimal; for v6 the
code prints host[i]&0xF (the low nibble) and then host[i]&0xF0 (the
high nibble left in place, NOT shifted down, unlike arpaZone). -/
def arpaHost (zone : IPNet) (host : IPAddr) : String :=
  let ones := zone.len
  let bits := zone.fam.bits
  let e := ones / 8
  let s := e + (bits - ones) / 8
  match host.fam with
  | .v4 =>
    String.intercalate "."
      ((List.range (s - e)).map (fun k => toString (byte4 host.addr (s - 1 - k))))
  | .v6 =>
    String.intercalate "."
      (((List.range (s - e)).map (fun k =>
        let b := byte16 host.addr (s - 1 - k)
        [hexStr (b % 16), hexStr (b / 16 * 16)])).flatten)

/-- Modelled from the spec: the reverse arpa host suffix for an address
within an octet-aligned zone; for v4, the address octets below the
zone's mask length, reversed; for v6, the nibbles below the mask length
reversed with the low nibble of each byte first, each nibble rendered as
one hexadecimal digit. -/
def arpaHostSpec (zone : IPNet) (host : IPAddr) : String :=
  let ones := zone.len
  let bits := zone.fam.bits
  let e := ones / 8
  let s := e + (bits - ones) / 8
  match host.fam with
  | .v4 =>
    String.intercalate "."
      ((List.range (s - e)).map (fun k => toString (byte4 host.addr (s - 1 - k))))
  | .v6 =>
    String.intercalate "."
      (((List.range (s - e)).map (fun k =>
        let b := byte16 host.addr (s - 1 - k)
        [hexStr (b % 16), hexStr (b / 16)])).flatten)

/-! ## Hosts and the allocation forest (database/db.go) -/

/-- Host from database/db.go.  parents maps each address of the host to
the allocation (identified by its CIDR) holding the host, none for the
Go nil pointer (no containing allocation). -/
structure Host where
  name : String
  addrs : List IPAddr
  attrs : List (String × String)
  parents : List (IPAddr × Option IPNet)
deriving DecidableEq

/-- Host.Parent from database/db.go: h.parents[ip.String()]; a missing
key and a stored nil pointer both read back as nil. -/
def Host.parentOf (h : Host) (ip : IPAddr) : Option IPNet :=
  match lookupA ip h.parents with
  | some v => v
  | none => none

/-- Allocation from database/db.go: a CIDR block, name, attribute bag,
host bag (address to host id) and ordered children.  The Go parent
pointer is implicit in the tree; hosts are referred to by the numeric
id under which they sit in DB.hosts, the model of pointer identity. -/
inductive Alloc where
  | node (net : IPNet) (name : String) (attrs : List (String × String))
      (hosts : List (IPAddr × Nat)) (children : List Alloc)

mutual

def decEqAlloc (a b : Alloc) : Decidable (a = b) :=
  match a, b with
  | .node n1 m1 a1 h1 c1, .node n2 m2 a2 h2 c2 =>
    if hn : n1 = n2 then
      if hm : m1 = m2 then
        if ha : a1 = a2 then
          if hh : h1 = h2 then
            match decEqAllocL c1 c2 with
            | isTrue hc => isTrue (by rw [hn, hm, ha, hh, hc])
            | isFalse hc => isFalse (by intro he; cases he; exact hc rfl)
          else isFalse (by intro he; cases he; exact hh rfl)
        else isFalse (by intro he; cases he; exact ha rfl)
      else isFalse (by intro he; cases he; exact hm rfl)
    else isFalse (by intro he; cases he; exact hn rfl)

def decEqAllocL (l1 l2 : List Alloc) : Decidable (l1 = l2) :=
  match l1, l2 with
  | [], [] => isTrue rfl
  | [], _ :: _ => isFalse (by intro h; cases h)
  | _ :: _, [] => isFalse (by intro h; cases h)
  | x :: xs, y :: ys =>
    match decEqAlloc x y with
    | isTrue hx =>
      match decEqAllocL xs ys with
      | isTrue ht => isTrue (by rw [hx, ht])
      | isFalse ht => isFalse (by intro h; cases h; exact ht rfl)
    | isFalse hx => isFalse (by intro h; cases h; exact hx rfl)

end

instance : DecidableEq Alloc := decEqAlloc

def Alloc.net : Alloc → IPNet
  | .node n _ _ _ _ => n

def Alloc.aname : Alloc → String
  | .node _ nm _ _ _ => nm

def Alloc.attrs : Alloc → List (String × String)
  | .node _ _ a _ _ => a

def Alloc.hosts : Alloc → List (IPAddr × Nat)
  | .node _ _ _ h _ => h

def Alloc.children : Alloc → List Alloc
  | .node _ _ _ _ c => c

/-- allocSort order on allocations (database/db.go): by IPNet.Less. -/
def lessA (a b : Alloc) : Prop := a.net.less b.net = true

instance : DecidableRel lessA := fun a b => by
  unfold lessA; infer_instance

/-- sort.Sort(allocSort(...)): any Less-sorted permutation.  Modelled
with insertion sort; wherever the code sorts, the elements are pairwise
strictly comparable, so every Less-sorted permutation coincides with
this one. -/
def sortAllocs (l : List Alloc) : List Alloc := List.insertionSort lessA l

mutual
/-- Allocation.findContainer from database/db.go: nil unless this node
contains n; otherwise the result of the first child that contains n,
or this node itself. -/
def findCont (n : IPNet) (t : Alloc) : Option Alloc :=
  match t with
  | .node nt nm ats hs cs =>
    if nt.containsNet n then
      match findContL n cs with
      | some r => some r
      | none => some (.node nt nm ats hs cs)
    else none

/-- The loop over a list of allocations: first non-nil findContainer. -/
def findContL (n : IPNet) : List Alloc → Option Alloc
  | [] => none
  | c :: rest =>
    match findCont n c with
    | some r => some r
    | none => findContL n rest
end

/-! The remaining generations and callers in the repository reuse these
same structures; the operations below follow database/db.go. -/

/-- DB from database/db.go.  hosts carries (id, host) pairs, ids
modelling pointer identity; hostLookup is the address-to-host index. -/
structure DB where
  dbname : String
  allocs : List Alloc
  hosts : List (Nat × Host)
  domains : List (String × Domain)
  hostLookup : List (IPAddr × Nat)
  nextHid : Nat
deriving DecidableEq

/-- New from database/db.go. -/
def DB.new (name : String) : DB := ⟨name, [], [], [], [], 0⟩

/-- DB.FindAllocation from database/db.go: first root whose
findContainer is non-nil; with exact set, nil unless the result's block
equals n. -/
def DB.findAllocation (d : DB) (n : IPNet) (exact : Bool) : Option Alloc :=
  match findContL n d.allocs with
  | some r => if exact && !(r.net.equalNet n) then none else some r
  | none => none

/-- DB.FindHost from database/db.go: the address-to-host index. -/
def DB.findHost (d : DB) (a : IPAddr) : Option Nat :=
  lookupA a d.hostLookup

mutual
/-- Rebuild the forest along the findContainer path of x, performing
DB.AddAllocation's else-branch surgery at the parent node: children of
the parent contained in x are re-parented under x (addChildren: append
in order, then sort), x joins the remaining children (append, then
sort), and the parent's host-bag entries whose address falls in x move
to x's bag.  Returns the updated tree and the moved bag entries. -/
def insertT (x : IPNet) (nm : String) (ats : List (String × String))
    (t : Alloc) : Alloc × List (IPAddr × Nat) :=
  match t with
  | .node nt tnm tats ths cs =>
    match insertTL x nm ats cs with
    | some (cs2, mv) => (.node nt tnm tats ths cs2, mv)
    | none =>
      let adopted := sortAllocs (cs.filter (fun c => x.containsNet c.net))
      let kept := cs.filter (fun c => !(x.containsNet c.net))
      let moved := ths.filter (fun e => x.containsIP e.1)
      let remain := ths.filter (fun e => !(x.containsIP e.1))
      (.node nt tnm tats remain
        (sortAllocs (kept ++ [.node x nm ats moved adopted])), moved)

/-- Descend into the first allocation of the list that contains x
(exactly the child findContainer descends into); none when no
allocation of the list contains x. -/
def insertTL (x : IPNet) (nm : String) (ats : List (String × String)) :
    List Alloc → Option (List Alloc × List (IPAddr × Nat))
  | [] => none
  | c :: rest =>
    if c.net.containsNet x then
      let (c2, mv) := insertT x nm ats c
      some (c2 :: rest, mv)
    else
      match insertTL x nm ats rest with
      | some (l, mv) => some (c :: l, mv)
      | none => none
end

/-- Set h.parents[ip] for the host with the given id. -/
def setHostParent (hid : Nat) (ip : IPAddr) (v : Option IPNet)
    (hosts : List (Nat × Host)) : List (Nat × Host) :=
  hosts.map (fun e =>
    if e.1 = hid then
      (e.1, Host.mk e.2.name e.2.addrs e.2.attrs (insertA ip v e.2.parents))
    else e)

/-- host.parents[ip] = v for every moved bag entry. -/
def reparentHosts (moved : List (IPAddr × Nat)) (v : Option IPNet)
    (hosts : List (Nat × Host)) : List (Nat × Host) :=
  moved.foldl (fun hs e => setHostParent e.2 e.1 v hs) hosts

/-- The orphan-adoption loop of DB.AddAllocation's root branch: for
every host, every address whose stored parent is nil and which falls in
the new block is indexed at the new block.  Returns the updated hosts
and the new node's host bag (in iteration order). -/
def adoptOrphans (x : IPNet) (hosts : List (Nat × Host)) :
    List (Nat × Host) × List (IPAddr × Nat) :=
  hosts.foldl
    (fun (st : List (Nat × Host) × List (IPAddr × Nat)) e =>
      let (acc, bag) := st
      let (hid, h) := e
      let grabbed := (h.parents.filter
        (fun p => p.2.isNone && x.containsIP p.1)).map (fun p => (p.1, hid))
      let ps2 := h.parents.map
        (fun p => if p.2.isNone && x.containsIP p.1 then (p.1, some x) else p)
      let h2 := { h with parents := ps2 }
      (acc ++ [(hid, h2)], grabbed.foldl (fun b g => insertA g.1 g.2 b) bag))
    ([], [])

/-- DB.AddAllocation from database/db.go. -/
def DB.addAllocation (d : DB) (nm : String) (x : IPNet)
    (ats : List (String × String)) : Except Err DB :=
  if ishost x then .error .hostAddressDisallowed
  else
    match d.findAllocation x false with
    | none =>
      let adopted := sortAllocs (d.allocs.filter (fun c => x.containsNet c.net))
      let kept := d.allocs.filter (fun c => !(x.containsNet c.net))
      let (hosts2, bag) := adoptOrphans x d.hosts
      let alloc := Alloc.node x nm ats bag adopted
      .ok { d with allocs := sortAllocs (kept ++ [alloc]), hosts := hosts2 }
    | some p =>
      if p.net.equalNet x then .error .alreadyAllocated
      else
        match insertTL x nm ats d.allocs with
        | some (allocs2, moved) =>
          .ok { d with allocs := allocs2, hosts := reparentHosts moved (some x) d.hosts }
        | none => .error .notFound

mutual
/-- Apply f to the host bag of the (unique) node carrying the block tgt. -/
def mapBag (tgt : IPNet) (f : List (IPAddr × Nat) → List (IPAddr × Nat))
    (t : Alloc) : Alloc :=
  match t with
  | .node nt nm ats hs cs =>
    .node nt nm ats (if nt.equalNet tgt then f hs else hs) (mapBagL tgt f cs)

def mapBagL (tgt : IPNet) (f : List (IPAddr × Nat) → List (IPAddr × Nat)) :
    List Alloc → List Alloc
  | [] => []
  | c :: rest => mapBag tgt f c :: mapBagL tgt f rest
end

mutual
/-- The non-root branch of DB.RemoveAllocation: locate the parent of the
node whose block equals x (the node the Go code reaches through
a.parent), detach that child, reattach or drop its children per the
reparent flag, and merge the child's host bag into the parent's (the Go
code does this host move for both flag values).  Returns the rebuilt
tree, the moved bag entries and the parent's block. -/
def removeT (x : IPNet) (rp : Bool) (t : Alloc) :
    Option (Alloc × List (IPAddr × Nat) × IPNet) :=
  match t with
  | .node nt nm ats hs cs =>
    match cs.find? (fun ch => ch.net.equalNet x) with
    | some cc =>
      let rest := cs.filter (fun ch => !(ch.net.equalNet x))
      let cs2 := if rp then sortAllocs (rest ++ cc.children) else rest
      let bag2 := cc.hosts.foldl (fun b g => insertA g.1 g.2 b) hs
      some (.node nt nm ats bag2 cs2, cc.hosts, nt)
    | none =>
      match removeTL x rp cs with
      | some (cs2, mv, pn) => some (.node nt nm ats hs cs2, mv, pn)
      | none => none

def removeTL (x : IPNet) (rp : Bool) :
    List Alloc → Option (List Alloc × List (IPAddr × Nat) × IPNet)
  | [] => none
  | c :: rest =>
    match removeT x rp c with
    | some (c2, mv, pn) => some (c2 :: rest, mv, pn)
    | none =>
      match removeTL x rp rest with
      | some (l, mv, pn) => some (c :: l, mv, pn)
      | none => none
end

/-- DB.RemoveAllocation from database/db.go, for an argument that is a
live node of the tree (identified by its block x).  Root case: the root
is dropped; with reparenting its children join the root list, which is
then sorted (without reparenting the children are discarded and the
list is left as filtered); hosts of the node get nil back-references.
Non-root case: removeT.  In both cases the Go code finally clears the
dead node's own links, which is invisible to the tree. -/
def DB.removeAllocation (d : DB) (x : IPNet) (rp : Bool) : Except Err DB :=
  match d.findAllocation x true with
  | none => .error .notFound
  | some c =>
    if d.allocs.any (fun r => r.net.equalNet x) then
      let rest := d.allocs.filter (fun r => !(r.net.equalNet x))
      let roots := if rp then sortAllocs (rest ++ c.children) else rest
      .ok { d with allocs := roots, hosts := reparentHosts c.hosts none d.hosts }
    else
      match removeTL x rp d.allocs with
      | some (allocs2, moved, pn) =>
        .ok { d with allocs := allocs2, hosts := reparentHosts moved (some pn) d.hosts }
      | none => .error .notFound

/-- One iteration of DB.AddHost's per-address loop (database/db.go):
index the address, and when a deepest containing allocation exists add
the host to its bag and point the back-reference at it, recording a nil
back-reference otherwise. -/
def addHostStep (hid : Nat)
    (st : List Alloc × List (IPAddr × Nat) × List (IPAddr × Option IPNet))
    (a : IPAddr) :
    List Alloc × List (IPAddr × Nat) × List (IPAddr × Option IPNet) :=
  let (al, hl, ps) := st
  let hl2 := insertA a hid hl
  match findContL (hostToNet a) al with
  | some alloc =>
    (mapBagL alloc.net (insertA a hid) al, hl2, insertA a (some alloc.net) ps)
  | none => (al, hl2, insertA a none ps)

/-- DB.AddHost from database/db.go: at least one address, none already
indexed; then per address the index, the deepest containing allocation's
host bag (when one exists) and the host's back-reference (the found
allocation or nil) are set, and the host joins the host list. -/
def DB.addHost (d : DB) (nm : String) (addrs : List IPAddr)
    (ats : List (String × String)) : Except Err DB :=
  if addrs.isEmpty then .error .noAddresses
  else if addrs.any (fun a => (lookupA a d.hostLookup).isSome) then .error .addressInUse
  else
    let hid := d.nextHid
    let st := addrs.foldl (addHostStep hid) (d.allocs, d.hostLookup, [])
    .ok { d with
          allocs := st.1
          hostLookup := st.2.1
          hosts := d.hosts ++ [(hid, ⟨nm, addrs, ats, st.2.2⟩)]
          nextHid := hid + 1 }

/-- DB.AddHost from the older generation in src/unnamed/part_001 (lines
207-237): when an address has no containing allocation the else branch
executes `alloc.hosts[a.String()] = nil` with alloc == nil, a Go
nil-pointer panic, modelled as the error nilDeref. -/
def DB.addHostV1 (d : DB) (nm : String) (addrs : List IPAddr)
    (ats : List (String × String)) : Except Err DB :=
  if addrs.isEmpty then .error .noAddresses
  else if addrs.any (fun a => (lookupA a d.hostLookup).isSome) then .error .addressInUse
  else
    let hid := d.nextHid
    let st0 : List Alloc × List (IPAddr × Nat) × List (IPAddr × Option IPNet) :=
      (d.allocs, d.hostLookup, [])
    match addrs.foldlM
      (fun st a =>
        let (al, hl, ps) := st
        let hl2 := insertA a hid hl
        match findContL (hostToNet a) al with
        | some alloc =>
          Except.ok (mapBagL alloc.net (insertA a hid) al, hl2,
            insertA a (some alloc.net) ps)
        | none => Except.error Err.nilDeref) st0 with
    | .ok (al2, hl2, ps2) =>
      .ok { d with
            allocs := al2
            hostLookup := hl2
            hosts := d.hosts ++ [(hid, ⟨nm, addrs, ats, ps2⟩)]
            nextHid := hid + 1 }
    | .error e => .error e

/-- DB.RemoveHost from database/db.go, for the host with id hid: every
address must still index this host; then every back-referenced live
allocation bag and the index drop the addresses, and the host leaves
the host list. -/
def DB.removeHost (d : DB) (hid : Nat) : Except Err DB :=
  match lookupA hid d.hosts with
  | none => .error .notFound
  | some h =>
    if h.addrs.any (fun ip => decide (d.findHost ip ≠ some hid)) then .error .notFound
    else
      let al2 := h.parents.foldl
        (fun al p =>
          match p.2 with
          | some nt => mapBagL nt (eraseA p.1) al
          | none => al) d.allocs
      let hl2 := h.parents.foldl (fun hl p => eraseA p.1 hl) d.hostLookup
      .ok { d with
            allocs := al2
            hostLookup := hl2
            hosts := d.hosts.filter (fun e => decide (e.1 ≠ hid)) }

/-- DB.AddHostAddr from database/db.go. -/
def DB.addHostAddr (d : DB) (hid : Nat) (a : IPAddr) : Except Err DB :=
  if (d.findHost a).isSome then .error .addressInUse
  else
    match lookupA hid d.hosts with
    | none => .error .notFound
    | some h =>
      let alloc := d.findAllocation (hostToNet a) false
      let al2 := match alloc with
        | some al => mapBagL al.net (insertA a hid) d.allocs
        | none => d.allocs
      let h2 := { h with
                  parents := insertA a (alloc.map (·.net)) h.parents
                  addrs := h.addrs ++ [a] }
      .ok { d with
            allocs := al2
            hosts := d.hosts.map (fun e => if e.1 = hid then (hid, h2) else e)
            hostLookup := insertA a hid d.hostLookup }

/-- DB.RmHostAddr from database/db.go. -/
def DB.rmHostAddr (d : DB) (hid : Nat) (a : IPAddr) : Except Err DB :=
  match lookupA hid d.hosts with
  | none => .error .notFound
  | some h =>
    match lookupA a h.parents with
    | none => .error .notFound
    | some alloc =>
      let al2 := match alloc with
        | some nt => mapBagL nt (eraseA a) d.allocs
        | none => d.allocs
      let h2 := { h with
                  parents := eraseA a h.parents
                  addrs := h.addrs.filter (fun x => decide (x ≠ a)) }
      .ok { d with
            allocs := al2
            hosts := d.hosts.map (fun e => if e.1 = hid then (hid, h2) else e)
            hostLookup := eraseA a d.hostLookup }

/-! ## Observation helpers over the forest -/

mutual
/-- All blocks of a forest, preorder. -/
def netsOfF : List Alloc → List IPNet
  | [] => []
  | t :: r => netsOfT t ++ netsOfF r

def netsOfT : Alloc → List IPNet
  | .node nt _ _ _ cs => nt :: netsOfF cs
end

mutual
/-- All (block, host bag) pairs of a forest, preorder. -/
def bagsOfF : List Alloc → List (IPNet × List (IPAddr × Nat))
  | [] => []
  | t :: r => bagsOfT t ++ bagsOfF r

def bagsOfT : Alloc → List (IPNet × List (IPAddr × Nat))
  | .node nt _ _ hs cs => (nt, hs) :: bagsOfF cs
end

mutual
/-- All subtree nodes of a forest, preorder. -/
def subsF : List Alloc → List Alloc
  | [] => []
  | t :: r => subsT t ++ subsF r

def subsT : Alloc → List Alloc
  | .node nt nm ats hs cs => .node nt nm ats hs cs :: subsF cs
end

mutual
/-- All (parent, child) node pairs of a forest. -/
def edgesOfF : List Alloc → List (Alloc × Alloc)
  | [] => []
  | t :: r => edgesOfT t ++ edgesOfF r

def edgesOfT : Alloc → List (Alloc × Alloc)
  | .node nt nm ats hs cs =>
    cs.map (fun c => (Alloc.node nt nm ats hs cs, c)) ++ edgesOfF cs
end

/-! ## The canonical forest of a set of blocks -/

/-- Strict containment test between canonical blocks. -/
def strictInB (m k : IPNet) : Bool := k.containsNet m && !(m.containsNet k)

/-- The maximal blocks of a list: those strictly inside none. -/
def rootsB (S : List IPNet) : List IPNet :=
  S.filter (fun m => !(S.any (fun k => strictInB m k)))

/-- The blocks of a list strictly inside r. -/
def childrenB (S : List IPNet) (r : IPNet) : List IPNet :=
  S.filter (fun m => strictInB m r)

/-- The canonical forest over a list of blocks: the maximal blocks
become the (sorted) top level, each carrying the canonical forest of
the blocks strictly inside it.  Fuel bounds the recursion depth; any
fuel beyond the list length is enough. -/
def buildN (nmf : IPNet → String) (atf : IPNet → List (String × String)) :
    Nat → List IPNet → List Alloc
  | 0, _ => []
  | fuel + 1, S =>
    sortAllocs ((rootsB S).map
      (fun r => Alloc.node r (nmf r) (atf r) [] (buildN nmf atf fuel (childrenB S r))))

/-- AddAllocation folded over a list of blocks, each block carrying the
name and attributes nmf/atf assign to it; a failing add leaves the
database unchanged, as in the Go API. -/
def addAllocs (nmf : IPNet → String) (atf : IPNet → List (String × String))
    (d : DB) (l : List IPNet) : DB :=
  l.foldl (fun d n =>
    match d.addAllocation (nmf n) n (atf n) with
    | .ok d2 => d2
    | .error _ => d) d

/-- The well-formedness of an insertion batch: every block is in range,
canonical (host bits zero) and not a host address. -/
def goodNet (n : IPNet) : Prop :=
  n.len ≤ n.fam.bits ∧ n.addr = n.netAddr ∧ ishost n = false

instance (n : IPNet) : Decidable (goodNet n) := by
  unfold goodNet; infer_instance

/-! # Theorems -/

/-! ## C2: ordering of CIDR blocks -/

/-- C2: the claim states that less(a, b) orders by family, then mask
length ascending, then canonical address, so less(10.0.0.0/8,
10.0.0.0/16) would be true.  The code reads both mask sizes from the
receiver, the length tiebreak never fires, and the two blocks compare
as unordered ties: less is false both ways. -/
theorem c2_less_ignores_length :
    IPNet.less ⟨.v4, 167772160, 8⟩ ⟨.v4, 167772160, 16⟩ = false ∧
    IPNet.less ⟨.v4, 167772160, 16⟩ ⟨.v4, 167772160, 8⟩ = false := by
  exact ⟨rfl, rfl⟩

/-! ## C8: zone serial ordering -/

/-- C8: the claim states lexicographic (date, counter) order, under
which a serial with a strictly later date is never Before an earlier
one.  The code compares counters whenever the first date is not
strictly earlier: with x = (2026-10-11, 0) and y = (2026-10-10, 5),
Before(x, y) returns true. -/
theorem c8_before_not_lexicographic :
    ZoneSerial.beforeZ ⟨⟨2026, 10, 11⟩, 0⟩ ⟨⟨2026, 10, 10⟩, 5⟩ = true := by
  exact rfl

/-! ## C6: reverse PTR owner labels -/

/-- C6: the claim states each v6 nibble is rendered as one hexadecimal
digit.  The code renders the low nibble correctly but formats the high
nibble without shifting it down (host[i]&0xF0, unlike arpaZone's
(host[i]&0xF0)>>4): for a /120 zone and an address whose last byte is
0xab the code emits "b.a0" where the spec text gives "b.a".  The v4
branch agrees with the spec. -/
theorem c6_arpa_high_nibble_unshifted :
    arpaHost ⟨.v6, 0, 120⟩ ⟨.v6, 171⟩ = "b.a0" ∧
    arpaHostSpec ⟨.v6, 0, 120⟩ ⟨.v6, 171⟩ = "b.a" ∧
    arpaHost ⟨.v4, 167772160, 8⟩ ⟨.v4, 167838211⟩ = "3.2.1" ∧
    arpaHostSpec ⟨.v4, 167772160, 8⟩ ⟨.v4, 167838211⟩ = "3.2.1" := by
  exact ⟨rfl, rfl, rfl, rfl⟩

/-! ## C9: domain creation -/

/-- C9: duplicate names and CIDR names without explicit ns/email fail
as claimed, and the four durations default to 1h/15min/21days/10min.
But database/db.go's AddDomain never sets the domain's private name
field, so with empty ns or email the stored domain's SOA falls back to
"ns1." and "hostmaster." with an empty name, not ns1.<name> and
hostmaster.<name>; the newest generation (addDomainV3) stores the
defaults with the name as the claim states. -/
theorem c9_addDomain_name_unset :
    addDomain (fun _ => false) [] "example.com" "" "" 0 0 0 0 =
      .ok [("example.com", ⟨"", "", "", 3600, 900, 1814400, 600, .zero, ""⟩)] ∧
    Domain.soa ⟨"", "", "", 3600, 900, 1814400, 600, .zero, ""⟩ =
      "@ IN SOA ns1.. hostmaster.. ( 0001010100 3600 900 1814400 600 )" ∧
    addDomainV3 (fun _ => false) [] "example.com" "" "" 0 0 0 0 =
      .ok [("example.com", ⟨"example.com", "ns1.example.com",
        "hostmaster.example.com", 3600, 900, 1814400, 600, .zero, ""⟩)] ∧
    Domain.soa ⟨"example.com", "ns1.example.com", "hostmaster.example.com",
        3600, 900, 1814400, 600, .zero, ""⟩ =
      "@ IN SOA ns1.example.com. hostmaster.example.com. ( 0001010100 3600 900 1814400 600 )" ∧
    addDomain (fun _ => false)
      [("example.com", ⟨"", "", "", 3600, 900, 1814400, 600, .zero, ""⟩)]
      "example.com" "ns" "e" 1 1 1 1 = .error .alreadyExists ∧
    addDomain (fun _ => true) [] "10.0.0.0/8" "" "x@y" 0 0 0 0 = .error .arpaRequiresNS ∧
    addDomain (fun _ => true) [] "10.0.0.0/8" "ns.x" "" 0 0 0 0 = .error .arpaRequiresEmail := by
  refine ⟨rfl, ?_, rfl, ?_, rfl, rfl, rfl⟩ <;> decide

/-! ## C7: serial increment and overflow -/

/-- Same-day increments accumulate while the counter stays within 99. -/
theorem incrN_ok (today : Date) :
    ∀ (k j : Nat), j + k ≤ 99 →
      ZoneSerial.incrN today k ⟨today, j⟩ = .ok ⟨today, j + k⟩ := by
  intro k
  induction k with
  | zero => intro j _; simp [ZoneSerial.incrN]
  | succ n ih =>
    intro j h
    have hj : ¬(j = 99) := by omega
    have hstep : ZoneSerial.incr today ⟨today, j⟩ = .ok ⟨today, j + 1⟩ := by
      simp [ZoneSerial.incr, hj]
    have h2 := ih (j + 1) (by omega)
    have h3 : j + 1 + n = j + (n + 1) := by omega
    rw [h3] at h2
    simp only [ZoneSerial.incrN, hstep, bind, Except.bind]
    exact h2

/-- A run of same-day increments that would push the counter past 99
fails with the overflow error. -/
theorem incrN_overflow (today : Date) :
    ∀ (k j : Nat), 99 < j + k → j ≤ 99 →
      ZoneSerial.incrN today k ⟨today, j⟩ = .error .serialOverflow := by
  intro k
  induction k with
  | zero => intro j h hle; omega
  | succ n ih =>
    intro j h hle
    by_cases hj : j = 99
    · have hstep : ZoneSerial.incr today ⟨today, j⟩ = .error .serialOverflow := by
        simp [ZoneSerial.incr, hj]
      simp only [ZoneSerial.incrN, hstep, bind, Except.bind]
    · have hstep : ZoneSerial.incr today ⟨today, j⟩ = .ok ⟨today, j + 1⟩ := by
        simp [ZoneSerial.incr, hj]
      simp only [ZoneSerial.incrN, hstep, bind, Except.bind]
      exact ih (j + 1) (by omega) (by omega)

/-- C7: Inc on a serial whose stored date equals today increments the
counter by one, failing with SerialOverflow exactly when the counter is
already 99; from counter 0, 99 same-day increments succeed (ending at
99) and the 100th fails.  Inc on any other stored date resets to
(today, 0) and never fails. -/
theorem c7_serial_increment (today : Date) (z : ZoneSerial) :
    (z.date = today → z.inc = 99 → z.incr today = .error .serialOverflow) ∧
    (z.date = today → z.inc ≠ 99 → z.incr today = .ok ⟨z.date, z.inc + 1⟩) ∧
    (z.date ≠ today → z.incr today = .ok ⟨today, 0⟩) ∧
    ZoneSerial.incrN today 99 ⟨today, 0⟩ = .ok ⟨today, 99⟩ ∧
    ZoneSerial.incrN today 100 ⟨today, 0⟩ = .error .serialOverflow := by
  refine ⟨?_, ?_, ?_, ?_, ?_⟩
  · intro h1 h2; simp [ZoneSerial.incr, h1, h2]
  · intro h1 h2; simp [ZoneSerial.incr, h1, h2]
  · intro h1; simp [ZoneSerial.incr, h1]
  · simpa using incrN_ok today 99 0 (by omega)
  · exact incrN_overflow today 100 0 (by omega) (by omega)

/-- Witness for C7 at a concrete date and serial. -/
theorem c7_serial_increment_witness :
    ZoneSerial.incr ⟨2026, 10, 11⟩ ⟨⟨2026, 10, 11⟩, 99⟩ = .error .serialOverflow ∧
    ZoneSerial.incr ⟨2026, 10, 11⟩ ⟨⟨2026, 10, 11⟩, 3⟩ = .ok ⟨⟨2026, 10, 11⟩, 4⟩ ∧
    ZoneSerial.incr ⟨2026, 10, 11⟩ ⟨⟨2025, 1, 1⟩, 7⟩ = .ok ⟨⟨2026, 10, 11⟩, 0⟩ :=
  ⟨(c7_serial_increment ⟨2026, 10, 11⟩ ⟨⟨2026, 10, 11⟩, 99⟩).1 rfl rfl,
   (c7_serial_increment ⟨2026, 10, 11⟩ ⟨⟨2026, 10, 11⟩, 3⟩).2.1 rfl (by decide),
   (c7_serial_increment ⟨2026, 10, 11⟩ ⟨⟨2025, 1, 1⟩, 7⟩).2.2.1 (by decide)⟩

/-! ## C5: content-hash gated serial increment on export -/

/-- C5: a successful export leaves a state that re-exports to the very
same text without touching the serial; when the rendered content's hash
differs from the stored one, the export increments the serial exactly
once, re-renders, stores the hash of the re-rendered text and returns
it.  The part_012 variant with force unset behaves identically. -/
theorem c5_export_serial_gate (today : Date) (hashf : String → String)
    (render : ZoneSerial → String) (st : ExpState) (z1 : String) (st1 : ExpState)
    (h : exportZone today hashf render st = .ok (z1, st1)) :
    exportZone today hashf render st1 = .ok (z1, st1) ∧
    exportZoneV2 today hashf render false st = exportZone today hashf render st ∧
    (hashf (render st.serial) ≠ st.lastHash →
      ∀ s2, st.serial.incr today = .ok s2 →
        z1 = render s2 ∧ st1 = ⟨s2, hashf (render s2)⟩) := by
  by_cases hc : hashf (render st.serial) = st.lastHash
  · have he : exportZone today hashf render st = .ok (render st.serial, st) := by
      simp [exportZone, hc]
    rw [he] at h
    cases h
    refine ⟨he, ?_, fun hne => absurd hc hne⟩
    simp [exportZoneV2, exportZone, hc]
  · cases hincr : st.serial.incr today with
    | error e =>
      exfalso
      simp [exportZone, hc, hincr, bind, Except.bind] at h
    | ok s2 =>
      have he : exportZone today hashf render st =
          .ok (render s2, ⟨s2, hashf (render s2)⟩) := by
        simp [exportZone, hc, hincr, bind, Except.bind]
      rw [he] at h
      cases h
      refine ⟨?_, ?_, ?_⟩
      · simp [exportZone]
      · simp [exportZoneV2, exportZone, hc, hincr, bind, Except.bind]
      · intro _ s3 h3
        cases h3
        exact ⟨rfl, rfl⟩

/-- Witness for C5: a first export on a fresh state increments the
serial and stores the hash; replaying the export returns the same text
and state. -/
theorem c5_export_serial_gate_witness :
    exportZone ⟨2026, 10, 11⟩ id ZoneSerial.str ⟨ZoneSerial.zero, ""⟩ =
      .ok ("2026101100", ⟨⟨⟨2026, 10, 11⟩, 0⟩, "2026101100"⟩) ∧
    exportZone ⟨2026, 10, 11⟩ id ZoneSerial.str ⟨⟨⟨2026, 10, 11⟩, 0⟩, "2026101100"⟩ =
      .ok ("2026101100", ⟨⟨⟨2026, 10, 11⟩, 0⟩, "2026101100"⟩) :=
  ⟨by rfl,
   (c5_export_serial_gate ⟨2026, 10, 11⟩ id ZoneSerial.str ⟨ZoneSerial.zero, ""⟩
     "2026101100" ⟨⟨⟨2026, 10, 11⟩, 0⟩, "2026101100"⟩ (by rfl)).1⟩

/-! ## C3: host-to-allocation index reconciliation -/

/-- C3: the claimed invariant breaks.  Run: add 10.0.0.0/8, add
10.0.0.0/16 under it, add host h at 10.0.0.1 (indexed at the /16),
remove 10.0.0.0/8 without reparenting (the /16 subtree is detached but
h's back-reference still points at it, per the code's "TODO: more
complex host reparenting"), then add 10.0.0.0/24.  Afterwards the
address index still maps 10.0.0.1 to h and the live tree consists of
exactly the /24, which contains 10.0.0.1 - yet h sits in no live host
bag (the /24's bag is empty, because the adoption loop skips addresses
whose stored back-reference is non-nil) and h's back-reference is the
destroyed /16, which is not a live node.  The claim requires h to be
indexed at the deepest live allocation containing the address, the /24. -/
theorem c3_host_index_invariant_broken :
    (do
      let d1 ← (DB.new "t").addAllocation "A" ⟨.v4, 167772160, 8⟩ []
      let d2 ← d1.addAllocation "B" ⟨.v4, 167772160, 16⟩ []
      let d3 ← d2.addHost "h" [⟨.v4, 167772161⟩] []
      let d4 ← d3.removeAllocation ⟨.v4, 167772160, 8⟩ false
      let d5 ← d4.addAllocation "C" ⟨.v4, 167772160, 24⟩ []
      Except.ok
        (d5.findHost ⟨.v4, 167772161⟩,
         (d5.findAllocation (hostToNet ⟨.v4, 167772161⟩) false).map Alloc.net,
         bagsOfF d5.allocs,
         (lookupA 0 d5.hosts).map (fun h => h.parentOf ⟨.v4, 167772161⟩),
         netsOfF d5.allocs)) =
      Except.ok
        (some 0,
         some ⟨.v4, 167772160, 24⟩,
         [(⟨.v4, 167772160, 24⟩, [])],
         some (some ⟨.v4, 167772160, 16⟩),
         [⟨.v4, 167772160, 24⟩]) := by
  rfl

/-! ## Association list lemmas -/

theorem lookupA_insertA_self {κ α : Type} [DecidableEq κ] (k : κ) (v : α) :
    ∀ l : List (κ × α), lookupA k (insertA k v l) = some v := by
  intro l
  induction l with
  | nil => simp [insertA, lookupA]
  | cons e r ih =>
    by_cases he : e.1 = k
    · simp [insertA, he, lookupA]
    · simp [insertA, he, lookupA, ih]

theorem lookupA_insertA_ne {κ α : Type} [DecidableEq κ] (k k2 : κ) (v : α)
    (hne : k2 ≠ k) :
    ∀ l : List (κ × α), lookupA k (insertA k2 v l) = lookupA k l := by
  intro l
  induction l with
  | nil => simp [insertA, lookupA, hne]
  | cons e r ih =>
    by_cases he : e.1 = k2
    · simp [insertA, he, lookupA, hne, ih]
    · simp [insertA, he, lookupA, ih]

/-! ## Shape lemmas for the container search -/

/-- findContainer answers nil exactly when the node's block does not
contain the target (when it does, the node itself is a fallback). -/
theorem findCont_eq_none_iff (n : IPNet) (t : Alloc) :
    findCont n t = none ↔ t.net.containsNet n = false := by
  cases t with
  | node nt nm ats hs cs =>
    show findCont n (.node nt nm ats hs cs) = none ↔ nt.containsNet n = false
    unfold findCont
    by_cases hc : nt.containsNet n
    · simp only [hc, if_true]
      cases hfl : findContL n cs <;> simp [hc]
    · simp only [Bool.not_eq_true] at hc
      simp [hc]

/-- mapBag leaves the block of every node unchanged. -/
theorem mapBag_net (tgt : IPNet) (f : List (IPAddr × Nat) → List (IPAddr × Nat))
    (t : Alloc) : (mapBag tgt f t).net = t.net := by
  cases t with
  | node nt nm ats hs cs => rfl

theorem findCont_mapBag_none (n tgt : IPNet)
    (f : List (IPAddr × Nat) → List (IPAddr × Nat)) (t : Alloc) :
    (findCont n (mapBag tgt f t) = none ↔ findCont n t = none) := by
  rw [findCont_eq_none_iff, findCont_eq_none_iff, mapBag_net]

theorem findContL_mapBagL_none (n tgt : IPNet)
    (f : List (IPAddr × Nat) → List (IPAddr × Nat)) :
    ∀ l : List Alloc, (findContL n (mapBagL tgt f l) = none ↔ findContL n l = none) := by
  intro l
  induction l with
  | nil => simp [mapBagL, findContL]
  | cons c rest ih =>
    simp only [mapBagL, findContL]
    cases hc2 : findCont n c with
    | some r2 =>
      have hne : findCont n (mapBag tgt f c) ≠ none := by
        rw [Ne, findCont_mapBag_none n tgt f c, hc2]
        simp
      cases hc : findCont n (mapBag tgt f c) with
      | some r => simp
      | none => exact absurd hc hne
    | none =>
      rw [(findCont_mapBag_none n tgt f c).mpr hc2]
      simpa using ih

/-! ## The AddHost per-address loop -/

/-- The loop never changes which blocks contain the target: the only
tree edit is a bag update. -/
theorem addHost_fold_shape (hid : Nat) (n : IPNet) :
    ∀ (addrs : List IPAddr) (al : List Alloc) (hl : List (IPAddr × Nat))
      (ps : List (IPAddr × Option IPNet)),
      (findContL n (addrs.foldl (addHostStep hid) (al, hl, ps)).1 = none) ↔
        (findContL n al = none) := by
  intro addrs
  induction addrs with
  | nil => intro al hl ps; simp
  | cons b rest ih =>
    intro al hl ps
    simp only [List.foldl_cons]
    cases hf : findContL (hostToNet b) al with
    | some alloc =>
      rw [show addHostStep hid (al, hl, ps) b =
        (mapBagL alloc.net (insertA b hid) al, insertA b hid hl,
          insertA b (some alloc.net) ps) from by simp [addHostStep, hf]]
      rw [ih]
      exact findContL_mapBagL_none n alloc.net (insertA b hid) al
    | none =>
      rw [show addHostStep hid (al, hl, ps) b =
        (al, insertA b hid hl, insertA b none ps) from by simp [addHostStep, hf]]
      exact ih al (insertA b hid hl) (insertA b none ps)

/-- Addresses not in the loop keep their index entry. -/
theorem addHost_fold_lookup_notmem (hid : Nat) (a : IPAddr) :
    ∀ (addrs : List IPAddr) (al : List Alloc) (hl : List (IPAddr × Nat))
      (ps : List (IPAddr × Option IPNet)), a ∉ addrs →
      lookupA a (addrs.foldl (addHostStep hid) (al, hl, ps)).2.1 = lookupA a hl := by
  intro addrs
  induction addrs with
  | nil => intro al hl ps _; simp
  | cons b rest ih =>
    intro al hl ps hmem
    have hb : b ≠ a := fun he => hmem (by simp [he])
    have hr : a ∉ rest := fun he => hmem (by simp [he])
    simp only [List.foldl_cons]
    cases hf : findContL (hostToNet b) al with
    | some alloc =>
      rw [show addHostStep hid (al, hl, ps) b =
        (mapBagL alloc.net (insertA b hid) al, insertA b hid hl,
          insertA b (some alloc.net) ps) from by simp [addHostStep, hf]]
      rw [ih _ _ _ hr, lookupA_insertA_ne a b hid hb]
    | none =>
      rw [show addHostStep hid (al, hl, ps) b =
        (al, insertA b hid hl, insertA b none ps) from by simp [addHostStep, hf]]
      rw [ih _ _ _ hr, lookupA_insertA_ne a b hid hb]

/-- Every processed address indexes the new host. -/
theorem addHost_fold_lookup_mem (hid : Nat) (a : IPAddr) :
    ∀ (addrs : List IPAddr) (al : List Alloc) (hl : List (IPAddr × Nat))
      (ps : List (IPAddr × Option IPNet)), a ∈ addrs →
      lookupA a (addrs.foldl (addHostStep hid) (al, hl, ps)).2.1 = some hid := by
  intro addrs
  induction addrs with
  | nil => intro al hl ps h; cases h
  | cons b rest ih =>
    intro al hl ps hmem
    by_cases hr : a ∈ rest
    · simp only [List.foldl_cons]
      cases hf : findContL (hostToNet b) al with
      | some alloc =>
        rw [show addHostStep hid (al, hl, ps) b =
          (mapBagL alloc.net (insertA b hid) al, insertA b hid hl,
            insertA b (some alloc.net) ps) from by simp [addHostStep, hf]]
        exact ih _ _ _ hr
      | none =>
        rw [show addHostStep hid (al, hl, ps) b =
          (al, insertA b hid hl, insertA b none ps) from by simp [addHostStep, hf]]
        exact ih _ _ _ hr
    · have hab : a = b := by
        rcases List.mem_cons.mp hmem with h | h
        · exact h
        · exact absurd h hr
      subst hab
      simp only [List.foldl_cons]
      cases hf : findContL (hostToNet a) al with
      | some alloc =>
        rw [show addHostStep hid (al, hl, ps) a =
          (mapBagL alloc.net (insertA a hid) al, insertA a hid hl,
            insertA a (some alloc.net) ps) from by simp [addHostStep, hf]]
        rw [addHost_fold_lookup_notmem hid a rest _ _ _ hr, lookupA_insertA_self]
      | none =>
        rw [show addHostStep hid (al, hl, ps) a =
          (al, insertA a hid hl, insertA a none ps) from by simp [addHostStep, hf]]
        rw [addHost_fold_lookup_notmem hid a rest _ _ _ hr, lookupA_insertA_self]

/-- Addresses not in the loop keep their back-reference entry. -/
theorem addHost_fold_parents_notmem (hid : Nat) (a : IPAddr) :
    ∀ (addrs : List IPAddr) (al : List Alloc) (hl : List (IPAddr × Nat))
      (ps : List (IPAddr × Option IPNet)), a ∉ addrs →
      lookupA a (addrs.foldl (addHostStep hid) (al, hl, ps)).2.2 = lookupA a ps := by
  intro addrs
  induction addrs with
  | nil => intro al hl ps _; simp
  | cons b rest ih =>
    intro al hl ps hmem
    have hb : b ≠ a := fun he => hmem (by simp [he])
    have hr : a ∉ rest := fun he => hmem (by simp [he])
    simp only [List.foldl_cons]
    cases hf : findContL (hostToNet b) al with
    | some alloc =>
      rw [show addHostStep hid (al, hl, ps) b =
        (mapBagL alloc.net (insertA b hid) al, insertA b hid hl,
          insertA b (some alloc.net) ps) from by simp [addHostStep, hf]]
      rw [ih _ _ _ hr, lookupA_insertA_ne a b _ hb]
    | none =>
      rw [show addHostStep hid (al, hl, ps) b =
        (al, insertA b hid hl, insertA b none ps) from by simp [addHostStep, hf]]
      rw [ih _ _ _ hr, lookupA_insertA_ne a b _ hb]

/-- A processed address that no allocation of the starting tree contains
ends with a nil back-reference. -/
theorem addHost_fold_parents_none (hid : Nat) (a : IPAddr) :
    ∀ (addrs : List IPAddr) (al : List Alloc) (hl : List (IPAddr × Nat))
      (ps : List (IPAddr × Option IPNet)), a ∈ addrs →
      findContL (hostToNet a) al = none →
      lookupA a (addrs.foldl (addHostStep hid) (al, hl, ps)).2.2 = some none := by
  intro addrs
  induction addrs with
  | nil => intro al hl ps h; cases h
  | cons b rest ih =>
    intro al hl ps hmem hnone
    by_cases hr : a ∈ rest
    · simp only [List.foldl_cons]
      cases hf : findContL (hostToNet b) al with
      | some alloc =>
        rw [show addHostStep hid (al, hl, ps) b =
          (mapBagL alloc.net (insertA b hid) al, insertA b hid hl,
            insertA b (some alloc.net) ps) from by simp [addHostStep, hf]]
        refine ih _ _ _ hr ?_
        exact (findContL_mapBagL_none _ _ _ al).mpr hnone
      | none =>
        rw [show addHostStep hid (al, hl, ps) b =
          (al, insertA b hid hl, insertA b none ps) from by simp [addHostStep, hf]]
        exact ih _ _ _ hr hnone
    · have hab : a = b := by
        rcases List.mem_cons.mp hmem with h | h
        · exact h
        · exact absurd h hr
      subst hab
      simp only [List.foldl_cons]
      rw [show addHostStep hid (al, hl, ps) a =
        (al, insertA a hid hl, insertA a none ps) from by simp [addHostStep, hnone]]
      rw [addHost_fold_parents_notmem hid a rest _ _ _ hr, lookupA_insertA_self]

/-! ## C10: host add with uncontained addresses -/

/-- C10: on database/db.go, adding a host with fresh addresses always
succeeds - even when an address is contained by no allocation - the
host is afterwards returned by the address lookup for each address, and
the stored back-reference is nil for each address without a container,
so Host.Parent answers nil.  The older generation in
src/unnamed/part_001 instead dereferences the nil allocation in exactly
that case (a crash), contradicting this safety claim. -/
theorem c10_addHost_orphan_safe (d : DB) (nm : String)
    (addrs : List IPAddr) (ats : List (String × String))
    (hne : addrs ≠ [])
    (hfree : ∀ a ∈ addrs, lookupA a d.hostLookup = none) :
    (∃ d2 rec2,
      d.addHost nm addrs ats = .ok d2 ∧
      d2.hosts = d.hosts ++ [(d.nextHid, rec2)] ∧
      (∀ a ∈ addrs, d2.findHost a = some d.nextHid) ∧
      (∀ a ∈ addrs, findContL (hostToNet a) d.allocs = none →
        rec2.parentOf a = none)) ∧
    (DB.new "t").addHostV1 "h" [⟨.v4, 167772161⟩] [] = .error .nilDeref := by
  constructor
  · have h1 : addrs.isEmpty = false := by
      cases addrs with
      | nil => exact absurd rfl hne
      | cons x xs => rfl
    have h2 : addrs.any (fun a => (lookupA a d.hostLookup).isSome) = false := by
      rw [List.any_eq_false]
      intro a ha
      rw [hfree a ha]
      simp
    set st := addrs.foldl (addHostStep d.nextHid) (d.allocs, d.hostLookup, []) with hst
    refine ⟨{ d with
              allocs := st.1
              hostLookup := st.2.1
              hosts := d.hosts ++ [(d.nextHid, ⟨nm, addrs, ats, st.2.2⟩)]
              nextHid := d.nextHid + 1 },
            ⟨nm, addrs, ats, st.2.2⟩, ?_, ?_, ?_, ?_⟩
    · simp only [DB.addHost, h1, h2, Bool.false_eq_true, if_false, ← hst]
    · rfl
    · intro a ha
      show lookupA a st.2.1 = some d.nextHid
      rw [hst]
      exact addHost_fold_lookup_mem d.nextHid a addrs _ _ _ ha
    · intro a ha hnone
      show Host.parentOf ⟨nm, addrs, ats, st.2.2⟩ a = none
      unfold Host.parentOf
      rw [show (Host.mk nm addrs ats st.2.2).parents = st.2.2 from rfl, hst]
      rw [addHost_fold_parents_none d.nextHid a addrs _ _ _ ha hnone]
  · rfl

/-! ## More association list lemmas -/

theorem lookupA_append_left {κ α : Type} [DecidableEq κ] (k : κ) (v : α) :
    ∀ l1 l2 : List (κ × α), lookupA k l1 = some v →
      lookupA k (l1 ++ l2) = some v := by
  intro l1 l2 h
  induction l1 with
  | nil => simp [lookupA] at h
  | cons e r ih =>
    simp only [List.cons_append, lookupA] at h ⊢
    by_cases he : e.1 = k
    · rw [if_pos he] at h ⊢
      exact h
    · rw [if_neg he] at h ⊢
      exact ih h

theorem lookupA_append_right {κ α : Type} [DecidableEq κ] (k : κ) :
    ∀ l1 l2 : List (κ × α), (∀ e ∈ l1, e.1 ≠ k) →
      lookupA k (l1 ++ l2) = lookupA k l2 := by
  intro l1 l2 h
  induction l1 with
  | nil => simp
  | cons e r ih =>
    have he : e.1 ≠ k := h e (by simp)
    simp only [List.cons_append, lookupA, he, if_false]
    exact ih (fun e2 h2 => h e2 (by simp [h2]))

theorem lookupA_of_mem_nodup {κ α : Type} [DecidableEq κ] :
    ∀ (l : List (κ × α)) (k : κ) (v : α),
      (l.map Prod.fst).Nodup → (k, v) ∈ l → lookupA k l = some v := by
  intro l
  induction l with
  | nil => intro k v _ h; cases h
  | cons e r ih =>
    intro k v hnd hmem
    rcases List.mem_cons.mp hmem with h | h
    · subst h
      simp [lookupA]
    · have hk : e.1 ≠ k := by
        intro he
        have : k ∈ r.map Prod.fst := List.mem_map_of_mem Prod.fst h
        rw [List.map_cons, List.nodup_cons] at hnd
        exact hnd.1 (he ▸ this)
      simp only [lookupA, hk, if_false]
      exact ih k v (by rw [List.map_cons, List.nodup_cons] at hnd; exact hnd.2) h

theorem foldl_insertA_notkey {κ α : Type} [DecidableEq κ] (k : κ) :
    ∀ (entries : List (κ × α)) (base : List (κ × α)),
      (∀ e ∈ entries, e.1 ≠ k) →
      lookupA k (entries.foldl (fun b g => insertA g.1 g.2 b) base) = lookupA k base := by
  intro entries
  induction entries with
  | nil => intro base _; simp
  | cons g r ih =>
    intro base h
    simp only [List.foldl_cons]
    rw [ih _ (fun e he => h e (by simp [he]))]
    exact lookupA_insertA_ne k g.1 g.2 (h g (by simp)) base

theorem foldl_insertA_mem {κ α : Type} [DecidableEq κ] :
    ∀ (entries base : List (κ × α)) (e : κ × α),
      (entries.map Prod.fst).Nodup → e ∈ entries →
      lookupA e.1 (entries.foldl (fun b g => insertA g.1 g.2 b) base) = some e.2 := by
  intro entries
  induction entries with
  | nil => intro base e _ h; cases h
  | cons g r ih =>
    intro base e hnd hmem
    rw [List.map_cons, List.nodup_cons] at hnd
    simp only [List.foldl_cons]
    rcases List.mem_cons.mp hmem with h | h
    · subst h
      rw [foldl_insertA_notkey e.1 r _ ?hk]
      · exact lookupA_insertA_self e.1 e.2 base
      · intro e2 he2 heq
        exact hnd.1 (heq ▸ List.mem_map_of_mem Prod.fst he2)
    · exact ih _ e hnd.2 h

/-! ## Block equality lemmas -/

theorem fam_beq (a b : Fam) : (a == b) = decide (a = b) := rfl

theorem containsNet_self (n : IPNet) : n.containsNet n = true := by
  simp [IPNet.containsNet, fam_beq]

theorem equalNet_self (n : IPNet) : n.equalNet n = true := by
  simp [IPNet.equalNet, containsNet_self]

theorem containsNet_iff (n n2 : IPNet) :
    n.containsNet n2 = true ↔ n.fam = n2.fam ∧ n.len ≤ n2.len ∧
      maskAddr n.fam.bits n.len n.addr = maskAddr n.fam.bits n.len n2.addr := by
  simp [IPNet.containsNet, fam_beq, Bool.and_eq_true, decide_eq_true_eq, and_assoc]

/-- On blocks whose host bits are zero (as net.ParseCIDR yields), Equal
coincides with structural equality. -/
theorem equalNet_eq_of_canon (n n2 : IPNet)
    (h1 : n.addr = n.netAddr) (h2 : n2.addr = n2.netAddr) :
    n.equalNet n2 = true → n = n2 := by
  intro h
  rw [IPNet.equalNet, Bool.and_eq_true, containsNet_iff, containsNet_iff] at h
  obtain ⟨⟨hf, hl, hm⟩, _, hl2, hm2⟩ := h
  have hlen : n.len = n2.len := Nat.le_antisymm hl hl2
  have haddr : n.addr = n2.addr := by
    rw [IPNet.netAddr] at h1 h2
    rw [h1, hm, hlen, hf, ← h2]
  calc n = ⟨n.fam, n.addr, n.len⟩ := rfl
    _ = ⟨n2.fam, n2.addr, n2.len⟩ := by rw [hf, haddr, hlen]
    _ = n2 := rfl

/-! ## Forest enumeration lemmas -/

theorem netsOfT_def (nt : IPNet) (nm : String) (ats : List (String × String))
    (hs : List (IPAddr × Nat)) (cs : List Alloc) :
    netsOfT (.node nt nm ats hs cs) = nt :: netsOfF cs := rfl

theorem net_mem_netsOfT (t : Alloc) : t.net ∈ netsOfT t := by
  cases t with
  | node nt nm ats hs cs => simp [netsOfT, Alloc.net]

theorem netsOfF_mem_of_mem : ∀ (l : List Alloc) (t : Alloc), t ∈ l →
    t.net ∈ netsOfF l := by
  intro l
  induction l with
  | nil => intro t h; cases h
  | cons c r ih =>
    intro t h
    rcases List.mem_cons.mp h with h | h
    · subst h
      simp only [netsOfF, List.mem_append]
      exact Or.inl (net_mem_netsOfT t)
    · simp only [netsOfF, List.mem_append]
      exact Or.inr (ih t h)

mutual
theorem subsF_net_sub : ∀ (l : List Alloc) (r : Alloc), r ∈ subsF l →
    ∀ nn ∈ netsOfT r, nn ∈ netsOfF l
  | [], r, h => by simp [subsF] at h
  | t :: rest, r, h => by
    simp only [subsF, List.mem_append] at h
    simp only [netsOfF, List.mem_append]
    rcases h with h | h
    · exact fun nn hnn => Or.inl (subsT_net_sub t r h nn hnn)
    · exact fun nn hnn => Or.inr (subsF_net_sub rest r h nn hnn)

theorem subsT_net_sub : ∀ (t r : Alloc), r ∈ subsT t →
    ∀ nn ∈ netsOfT r, nn ∈ netsOfT t
  | .node nt nm ats hs cs, r, h => by
    simp only [subsT, List.mem_cons] at h
    rcases h with h | h
    · subst h
      exact fun nn hnn => hnn
    · intro nn hnn
      rw [netsOfT_def]
      exact List.mem_cons_of_mem nt (subsF_net_sub cs r h nn hnn)
end

theorem self_mem_subsT (t : Alloc) : t ∈ subsT t := by
  cases t with
  | node nt nm ats hs cs => simp [subsT]

theorem mem_subsF_of_mem : ∀ (l : List Alloc) (t : Alloc), t ∈ l → t ∈ subsF l := by
  intro l
  induction l with
  | nil => intro t h; cases h
  | cons c r ih =>
    intro t h
    simp only [subsF, List.mem_append]
    rcases List.mem_cons.mp h with h | h
    · subst h
      exact Or.inl (self_mem_subsT t)
    · exact Or.inr (ih t h)

mutual
theorem bagsOfF_keys : ∀ l : List Alloc, (bagsOfF l).map Prod.fst = netsOfF l
  | [] => by simp [bagsOfF, netsOfF]
  | t :: rest => by
    simp only [bagsOfF, netsOfF, List.map_append]
    rw [bagsOfT_keys t, bagsOfF_keys rest]

theorem bagsOfT_keys : ∀ t : Alloc, (bagsOfT t).map Prod.fst = netsOfT t
  | .node nt nm ats hs cs => by
    simp only [bagsOfT, netsOfT, List.map_cons]
    rw [bagsOfF_keys cs]
end

mutual
theorem bags_mem_of_subsF : ∀ (l : List Alloc) (r : Alloc), r ∈ subsF l →
    (r.net, r.hosts) ∈ bagsOfF l
  | [], r, h => by simp [subsF] at h
  | t :: rest, r, h => by
    simp only [subsF, List.mem_append] at h
    simp only [bagsOfF, List.mem_append]
    rcases h with h | h
    · exact Or.inl (bags_mem_of_subsT t r h)
    · exact Or.inr (bags_mem_of_subsF rest r h)

theorem bags_mem_of_subsT : ∀ (t r : Alloc), r ∈ subsT t →
    (r.net, r.hosts) ∈ bagsOfT t
  | .node nt nm ats hs cs, r, h => by
    simp only [subsT, List.mem_cons] at h
    simp only [bagsOfT]
    rcases h with h | h
    · subst h
      exact List.mem_cons_self _ _
    · exact List.mem_cons_of_mem _ (bags_mem_of_subsF cs r h)
end

mutual
theorem edgesF_child_net : ∀ (l : List Alloc) (e : Alloc × Alloc),
    e ∈ edgesOfF l → e.2.net ∈ netsOfF l
  | [], e, h => by simp [edgesOfF] at h
  | t :: rest, e, h => by
    simp only [edgesOfF, List.mem_append] at h
    simp only [netsOfF, List.mem_append]
    rcases h with h | h
    · cases t with
      | node nt nm ats hs cs =>
        exact Or.inl (List.mem_cons_of_mem nt (edgesT_child_net _ e h))
    · exact Or.inr (edgesF_child_net rest e h)

/-- The child of an edge of a tree sits strictly below the root. -/
theorem edgesT_child_net : ∀ (t : Alloc) (e : Alloc × Alloc),
    e ∈ edgesOfT t → e.2.net ∈ netsOfF t.children
  | .node nt nm ats hs cs, e, h => by
    simp only [edgesOfT, List.mem_append] at h
    show e.2.net ∈ netsOfF cs
    rcases h with h | h
    · obtain ⟨c, hc, he⟩ := List.mem_map.mp h
      rw [← he]
      exact netsOfF_mem_of_mem cs c hc
    · exact edgesF_child_net cs e h
end

mutual
theorem edgesF_parent_sub : ∀ (l : List Alloc) (e : Alloc × Alloc),
    e ∈ edgesOfF l → e.1 ∈ subsF l
  | [], e, h => by simp [edgesOfF] at h
  | t :: rest, e, h => by
    simp only [edgesOfF, List.mem_append] at h
    simp only [subsF, List.mem_append]
    rcases h with h | h
    · exact Or.inl (edgesT_parent_sub t e h)
    · exact Or.inr (edgesF_parent_sub rest e h)

theorem edgesT_parent_sub : ∀ (t : Alloc) (e : Alloc × Alloc),
    e ∈ edgesOfT t → e.1 ∈ subsT t
  | .node nt nm ats hs cs, e, h => by
    simp only [edgesOfT, List.mem_append] at h
    simp only [subsT]
    rcases h with h | h
    · obtain ⟨c, hc, he⟩ := List.mem_map.mp h
      rw [← he]
      exact List.mem_cons_self _ _
    · exact List.mem_cons_of_mem _ (edgesF_parent_sub cs e h)
end

mutual
theorem edgesF_child_sub : ∀ (l : List Alloc) (e : Alloc × Alloc),
    e ∈ edgesOfF l → e.2 ∈ subsF l
  | [], e, h => by simp [edgesOfF] at h
  | t :: rest, e, h => by
    simp only [edgesOfF, List.mem_append] at h
    simp only [subsF, List.mem_append]
    rcases h with h | h
    · exact Or.inl (edgesT_child_sub t e h)
    · exact Or.inr (edgesF_child_sub rest e h)

theorem edgesT_child_sub : ∀ (t : Alloc) (e : Alloc × Alloc),
    e ∈ edgesOfT t → e.2 ∈ subsT t
  | .node nt nm ats hs cs, e, h => by
    simp only [edgesOfT, List.mem_append] at h
    simp only [subsT]
    rcases h with h | h
    · obtain ⟨c, hc, he⟩ := List.mem_map.mp h
      refine List.mem_cons_of_mem _ (mem_subsF_of_mem cs e.2 ?_)
      rw [← he]
      exact hc
    · exact List.mem_cons_of_mem _ (edgesF_child_sub cs e h)
end

/-! In a forest with pairwise distinct blocks, a block determines its
node. -/
mutual
theorem subsF_unique : ∀ (l : List Alloc), (netsOfF l).Nodup →
    ∀ r1 r2, r1 ∈ subsF l → r2 ∈ subsF l → r1.net = r2.net → r1 = r2
  | [], _, r1, r2, h1, _, _ => by simp [subsF] at h1
  | t :: rest, hnd, r1, r2, h1, h2, hnet => by
    rw [show netsOfF (t :: rest) = netsOfT t ++ netsOfF rest from rfl,
      List.nodup_append] at hnd
    obtain ⟨hnd1, hnd2, hdisj⟩ := hnd
    simp only [subsF, List.mem_append] at h1 h2
    rcases h1 with h1 | h1 <;> rcases h2 with h2 | h2
    · exact subsT_unique t hnd1 r1 r2 h1 h2 hnet
    · exact absurd (subsF_net_sub rest r2 h2 r2.net (net_mem_netsOfT r2))
        (fun hm => hdisj (subsT_net_sub t r1 h1 r1.net (net_mem_netsOfT r1)) (hnet ▸ hm))
    · exact absurd (subsF_net_sub rest r1 h1 r1.net (net_mem_netsOfT r1))
        (fun hm => hdisj (subsT_net_sub t r2 h2 r2.net (net_mem_netsOfT r2)) (hnet ▸ hm))
    · exact subsF_unique rest hnd2 r1 r2 h1 h2 hnet

theorem subsT_unique : ∀ (t : Alloc), (netsOfT t).Nodup →
    ∀ r1 r2, r1 ∈ subsT t → r2 ∈ subsT t → r1.net = r2.net → r1 = r2
  | .node nt nm ats hs cs, hnd, r1, r2, h1, h2, hnet => by
    rw [netsOfT_def, List.nodup_cons] at hnd
    simp only [subsT, List.mem_cons] at h1 h2
    rcases h1 with h1 | h1 <;> rcases h2 with h2 | h2
    · rw [h1, h2]
    · subst h1
      exact absurd (subsF_net_sub cs r2 h2 r2.net (net_mem_netsOfT r2))
        (by rw [← hnet]; exact fun hm => hnd.1 hm)
    · subst h2
      exact absurd (subsF_net_sub cs r1 h1 r1.net (net_mem_netsOfT r1))
        (by rw [hnet]; exact fun hm => hnd.1 hm)
    · exact subsF_unique cs hnd.2 r1 r2 h1 h2 hnet
end

mutual
theorem findCont_mem_subsT : ∀ (t r : Alloc) (n : IPNet),
    findCont n t = some r → r ∈ subsT t
  | .node nt nm ats hs cs, r, n, h => by
    rw [findCont] at h
    by_cases hc : nt.containsNet n
    · rw [if_pos hc] at h
      cases hfl : findContL n cs with
      | some r2 =>
        rw [hfl] at h
        cases h
        exact List.mem_cons_of_mem _ (findContL_mem_subsF cs r n hfl)
      | none =>
        rw [hfl] at h
        cases h
        exact List.mem_cons_self _ _
    · rw [if_neg hc] at h
      cases h

theorem findContL_mem_subsF : ∀ (l : List Alloc) (r : Alloc) (n : IPNet),
    findContL n l = some r → r ∈ subsF l
  | [], r, n, h => by simp [findContL] at h
  | c :: rest, r, n, h => by
    rw [findContL] at h
    simp only [subsF, List.mem_append]
    cases hc : findCont n c with
    | some r2 =>
      rw [hc] at h
      cases h
      exact Or.inl (findCont_mem_subsT c r n hc)
    | none =>
      rw [hc] at h
      exact Or.inr (findContL_mem_subsF rest r n h)
end

/-- A successful exact FindAllocation yields a live node whose block
Equals the request. -/
theorem findAllocation_exact_spec (d : DB) (x : IPNet) (c : Alloc)
    (h : d.findAllocation x true = some c) :
    c ∈ subsF d.allocs ∧ c.net.equalNet x = true := by
  rw [DB.findAllocation] at h
  cases hfl : findContL x d.allocs with
  | some r =>
    rw [hfl] at h
    by_cases he : r.net.equalNet x
    · simp only [he, Bool.not_true, Bool.and_false, Bool.false_eq_true, if_false] at h
      cases h
      exact ⟨findContL_mem_subsF d.allocs c x hfl, he⟩
    · simp only [Bool.not_eq_true] at he
      simp only [he, Bool.not_false, Bool.and_true, if_true] at h
      cases h
  | none =>
    rw [hfl] at h
    cases h

/-! If a removal search succeeds somewhere in a tree, a block Equal to
the target sits strictly inside it. -/
mutual
theorem removeT_some_net (x : IPNet) : ∀ (t : Alloc)
    (res : Alloc × List (IPAddr × Nat) × IPNet),
    removeT x false t = some res → ∃ nn ∈ netsOfT t, nn.equalNet x = true
  | .node nt nm ats hs cs, res, h => by
    rw [removeT] at h
    cases hf : List.find? (fun ch => ch.net.equalNet x) cs with
    | some cc =>
      refine ⟨cc.net, ?_, by simpa using List.find?_some hf⟩
      rw [netsOfT_def]
      exact List.mem_cons_of_mem _
        (netsOfF_mem_of_mem cs cc (List.mem_of_find?_eq_some hf))
    | none =>
      rw [hf] at h
      cases hrl : removeTL x false cs with
      | some res2 =>
        obtain ⟨nn, hm, he⟩ := removeTL_some_net x cs res2 hrl
        exact ⟨nn, by rw [netsOfT_def]; exact List.mem_cons_of_mem _ hm, he⟩
      | none =>
        rw [hrl] at h
        cases h

theorem removeTL_some_net (x : IPNet) : ∀ (l : List Alloc)
    (res : List Alloc × List (IPAddr × Nat) × IPNet),
    removeTL x false l = some res → ∃ nn ∈ netsOfF l, nn.equalNet x = true
  | [], res, h => by rw [removeTL] at h; cases h
  | c :: rest, res, h => by
    rw [removeTL] at h
    cases hrt : removeT x false c with
    | some r2 =>
      obtain ⟨nn, hm, he⟩ := removeT_some_net x c r2 hrt
      exact ⟨nn, by
        rw [show netsOfF (c :: rest) = netsOfT c ++ netsOfF rest from rfl]
        exact List.mem_append_left _ hm, he⟩
    | none =>
      rw [hrt] at h
      cases hrl : removeTL x false rest with
      | some r2 =>
        obtain ⟨nn, hm, he⟩ := removeTL_some_net x rest r2 hrl
        exact ⟨nn, by
          rw [show netsOfF (c :: rest) = netsOfT c ++ netsOfF rest from rfl]
          exact List.mem_append_right _ hm, he⟩
      | none =>
        rw [hrl] at h
        cases h
end

/-! If the removal search fails on a tree, no edge of it carries the
target block. -/
mutual
theorem removeT_none_no_edge (x : IPNet) : ∀ (t : Alloc),
    removeT x false t = none → ∀ e ∈ edgesOfT t, e.2.net.equalNet x = false
  | .node nt nm ats hs cs, h, e, he => by
    rw [removeT] at h
    cases hf : List.find? (fun ch => ch.net.equalNet x) cs with
    | some cc =>
      rw [hf] at h
      cases h
    | none =>
      rw [hf] at h
      cases hrl : removeTL x false cs with
      | some res =>
        rw [hrl] at h
        obtain ⟨cs2, mv, pn⟩ := res
        cases h
      | none =>
        simp only [edgesOfT, List.mem_append] at he
        rcases he with he | he
        · obtain ⟨c, hc, hce⟩ := List.mem_map.mp he
          have := List.find?_eq_none.mp hf c hc
          rw [← hce]
          simpa using this
        · exact removeTL_none_no_edge x cs hrl e he

theorem removeTL_none_no_edge (x : IPNet) : ∀ (l : List Alloc),
    removeTL x false l = none → ∀ e ∈ edgesOfF l, e.2.net.equalNet x = false
  | [], h, e, he => by simp [edgesOfF] at he
  | c :: rest, h, e, he => by
    rw [removeTL] at h
    cases hrt : removeT x false c with
    | some r2 =>
      rw [hrt] at h
      obtain ⟨c2, mv, pn⟩ := r2
      cases h
    | none =>
      rw [hrt] at h
      cases hrl : removeTL x false rest with
      | some r2 =>
        rw [hrl] at h
        obtain ⟨l2, mv, pn⟩ := r2
        cases h
      | none =>
        simp only [edgesOfF, List.mem_append] at he
        rcases he with he | he
        · exact removeT_none_no_edge x c hrt e he
        · exact removeTL_none_no_edge x rest hrl e he
end

/-- When a block sits at a root of a duplicate-free forest, it is the
child of no edge. -/
theorem no_edge_of_root_net (x : IPNet) :
    ∀ (l : List Alloc), (netsOfF l).Nodup → ∀ cc0 ∈ l, cc0.net = x →
      ∀ e ∈ edgesOfF l, e.2.net ≠ x := by
  intro l
  induction l with
  | nil => intro _ cc0 h; cases h
  | cons t rest ih =>
    intro hnd cc0 hmem hx e he hex
    rw [show netsOfF (t :: rest) = netsOfT t ++ netsOfF rest from rfl,
      List.nodup_append] at hnd
    obtain ⟨hnd1, hnd2, hdisj⟩ := hnd
    simp only [edgesOfF, List.mem_append] at he
    rcases List.mem_cons.mp hmem with hc | hc
    · subst hc
      rcases he with he | he
      · have h1 := edgesT_child_net cc0 e he
        cases cc0 with
        | node nt nm ats hs cs =>
          rw [netsOfT_def, List.nodup_cons] at hnd1
          have hnt : nt = x := hx
          exact hnd1.1 (by rw [hnt, ← hex]; exact h1)
      · have h1 := edgesF_child_net rest e he
        have hx2 : x ∈ netsOfT cc0 := hx ▸ net_mem_netsOfT cc0
        exact hdisj hx2 (hex ▸ h1)
    · have hx2 : x ∈ netsOfF rest := hx ▸ netsOfF_mem_of_mem rest cc0 hc
      rcases he with he | he
      · have h1 := edgesT_child_net t e he
        have h2 : e.2.net ∈ netsOfT t := by
          cases t with
          | node nt nm ats hs cs => exact List.mem_cons_of_mem nt h1
        exact hdisj (hex ▸ h2) hx2
      · exact ih hnd2 cc0 hc hx e he hex

/-- Dropping the child Equal to x from a sibling list removes exactly
the nets of that child's subtree from the forest enumeration. -/
theorem netsOfF_remove_child (x : IPNet) :
    ∀ (cs : List Alloc) (cc : Alloc), (netsOfF cs).Nodup →
      (∀ nn ∈ netsOfF cs, nn.addr = nn.netAddr) → x.addr = x.netAddr →
      cc ∈ cs → cc.net = x →
      netsOfF (cs.filter (fun ch => !(ch.net.equalNet x))) =
        (netsOfF cs).filter (fun nn => decide (nn ∉ netsOfT cc)) := by
  intro cs
  induction cs with
  | nil => intro cc _ _ _ hm; intro h; cases hm
  | cons c rest ih =>
    intro cc hnd hcanon hxc hm hcx
    rw [show netsOfF (c :: rest) = netsOfT c ++ netsOfF rest from rfl,
      List.nodup_append] at hnd
    obtain ⟨hnd1, hnd2, hdisj⟩ := hnd
    have hcanon1 : ∀ nn ∈ netsOfT c, nn.addr = nn.netAddr := fun nn hnn =>
      hcanon nn (by
        rw [show netsOfF (c :: rest) = netsOfT c ++ netsOfF rest from rfl]
        exact List.mem_append_left _ hnn)
    have hcanon2 : ∀ nn ∈ netsOfF rest, nn.addr = nn.netAddr := fun nn hnn =>
      hcanon nn (by
        rw [show netsOfF (c :: rest) = netsOfT c ++ netsOfF rest from rfl]
        exact List.mem_append_right _ hnn)
    by_cases hceq : c = cc
    · subst hceq
      have hfe : c.net.equalNet x = true := by rw [hcx]; exact equalNet_self x
      have hrestkeep : rest.filter (fun ch => !(ch.net.equalNet x)) = rest := by
        apply List.filter_eq_self.mpr
        intro ch hch
        by_cases he : ch.net.equalNet x
        · have hcanch : ch.net.addr = ch.net.netAddr :=
            hcanon2 _ (netsOfF_mem_of_mem rest ch hch)
          exfalso
          apply hdisj (show x ∈ netsOfT c from hcx ▸ net_mem_netsOfT c)
          exact (equalNet_eq_of_canon _ _ hcanch hxc he) ▸
            netsOfF_mem_of_mem rest ch hch
        · simpa using he
      rw [List.filter_cons_of_neg (by rw [hfe]; simp), hrestkeep]
      rw [show netsOfF (c :: rest) = netsOfT c ++ netsOfF rest from rfl,
        List.filter_append]
      have h1 : (netsOfT c).filter (fun nn => decide (nn ∉ netsOfT c)) = [] := by
        rw [List.filter_eq_nil_iff]
        intro nn hnn
        simp [hnn]
      have h2 : (netsOfF rest).filter (fun nn => decide (nn ∉ netsOfT c)) =
          netsOfF rest := by
        apply List.filter_eq_self.mpr
        intro nn hnn
        simp only [decide_eq_true_eq]
        exact fun hin => hdisj hin hnn
      rw [h1, h2, List.nil_append]
    · have hmr : cc ∈ rest := by
        rcases List.mem_cons.mp hm with h | h
        · exact absurd h.symm hceq
        · exact h
      have hne : c.net.equalNet x = false := by
        by_cases he : c.net.equalNet x
        · have hcanc : c.net.addr = c.net.netAddr := hcanon1 _ (net_mem_netsOfT c)
          exfalso
          apply hdisj (show x ∈ netsOfT c from
            (equalNet_eq_of_canon _ _ hcanc hxc he) ▸ net_mem_netsOfT c)
          exact hcx ▸ netsOfF_mem_of_mem rest cc hmr
        · simpa using he
      rw [List.filter_cons_of_pos (by rw [hne]; simp)]
      rw [show netsOfF (c :: rest.filter (fun ch => !(ch.net.equalNet x))) =
        netsOfT c ++ netsOfF (rest.filter (fun ch => !(ch.net.equalNet x))) from rfl]
      rw [ih cc hnd2 hcanon2 hxc hmr hcx]
      rw [show netsOfF (c :: rest) = netsOfT c ++ netsOfF rest from rfl,
        List.filter_append]
      congr 1
      symm
      apply List.filter_eq_self.mpr
      intro nn hnn
      simp only [decide_eq_true_eq]
      intro hin
      exact hdisj hnn (subsF_net_sub rest cc (mem_subsF_of_mem rest cc hmr) nn hin)

/-! ## Host back-reference update lemmas -/

theorem setHostParent_lookup_self (hid : Nat) (ip : IPAddr) (v : Option IPNet) :
    ∀ hs : List (Nat × Host),
      lookupA hid (setHostParent hid ip v hs) =
        (lookupA hid hs).map
          (fun hh => Host.mk hh.name hh.addrs hh.attrs (insertA ip v hh.parents)) := by
  intro hs
  induction hs with
  | nil => simp [setHostParent, lookupA]
  | cons e r ih =>
    simp only [setHostParent, List.map_cons] at ih ⊢
    by_cases he : e.1 = hid
    · rw [if_pos he]
      simp only [lookupA, he, if_pos]
      rfl
    · rw [if_neg he]
      simp only [lookupA, he, if_neg, if_false, ih]

theorem setHostParent_lookup_ne (k hid : Nat) (ip : IPAddr) (v : Option IPNet)
    (hne : k ≠ hid) :
    ∀ hs : List (Nat × Host),
      lookupA k (setHostParent hid ip v hs) = lookupA k hs := by
  intro hs
  induction hs with
  | nil => simp [setHostParent, lookupA]
  | cons e r ih =>
    simp only [setHostParent, List.map_cons] at ih ⊢
    by_cases he : e.1 = hid
    · rw [if_pos he]
      have hek : ¬(e.1 = k) := fun h => hne (h ▸ he ▸ rfl)
      simp only [lookupA, hek, if_neg, if_false, ih]
    · rw [if_neg he]
      by_cases hek : e.1 = k
      · simp only [lookupA, hek, if_pos]
      · simp only [lookupA, hek, if_neg, if_false, ih]

theorem parentOf_insert_self (hh : Host) (ip : IPAddr) (v : Option IPNet) :
    (Host.mk hh.name hh.addrs hh.attrs (insertA ip v hh.parents)).parentOf ip = v := by
  unfold Host.parentOf
  rw [show (Host.mk hh.name hh.addrs hh.attrs (insertA ip v hh.parents)).parents =
    insertA ip v hh.parents from rfl]
  rw [lookupA_insertA_self]

theorem parentOf_insert_ne (hh : Host) (ip ip2 : IPAddr) (v : Option IPNet)
    (hne : ip2 ≠ ip) :
    (Host.mk hh.name hh.addrs hh.attrs (insertA ip2 v hh.parents)).parentOf ip =
      hh.parentOf ip := by
  unfold Host.parentOf
  rw [show (Host.mk hh.name hh.addrs hh.attrs (insertA ip2 v hh.parents)).parents =
    insertA ip2 v hh.parents from rfl]
  rw [lookupA_insertA_ne ip ip2 v hne]

/-- The host-bag move loop sets the back-reference of exactly the moved
(address, host) pairs to v, leaving every other back-reference - in
particular those of hosts indexed at destroyed descendants - unchanged. -/
theorem reparentHosts_lookup (v : Option IPNet) :
    ∀ (mv : List (IPAddr × Nat)) (hs : List (Nat × Host)) (hid : Nat) (hh : Host),
      lookupA hid hs = some hh →
      ∃ h2, lookupA hid (reparentHosts mv v hs) = some h2 ∧
        (∀ ip, (ip, hid) ∈ mv → h2.parentOf ip = v) ∧
        (∀ ip, (ip, hid) ∉ mv → h2.parentOf ip = hh.parentOf ip) ∧
        h2.name = hh.name ∧ h2.addrs = hh.addrs := by
  intro mv
  induction mv with
  | nil =>
    intro hs hid hh hl
    exact ⟨hh, hl, by simp, fun _ _ => rfl, rfl, rfl⟩
  | cons g rest ih =>
    intro hs hid hh hl
    rw [show reparentHosts (g :: rest) v hs =
      reparentHosts rest v (setHostParent g.2 g.1 v hs) from rfl]
    by_cases hg : g.2 = hid
    · have hl2 : lookupA hid (setHostParent g.2 g.1 v hs) =
          some (Host.mk hh.name hh.addrs hh.attrs (insertA g.1 v hh.parents)) := by
        rw [hg, setHostParent_lookup_self, hl]
        rfl
      obtain ⟨h2, hh2, hmem, hnot, hnm, had⟩ := ih _ hid _ hl2
      refine ⟨h2, hh2, ?_, ?_, hnm, had⟩
      · intro ip hip
        rcases List.mem_cons.mp hip with hip | hip
        · by_cases hipr : (ip, hid) ∈ rest
          · exact hmem ip hipr
          · have hip1 : ip = g.1 := congrArg Prod.fst hip
            rw [hnot ip hipr, hip1]
            exact parentOf_insert_self hh g.1 v
        · exact hmem ip hip
      · intro ip hip
        have hipr : (ip, hid) ∉ rest := fun hr => hip (List.mem_cons_of_mem _ hr)
        have hipg : ip ≠ g.1 := by
          intro he
          apply hip
          rw [he, ← hg]
          exact List.mem_cons_self g rest
        rw [hnot ip hipr]
        exact parentOf_insert_ne hh ip g.1 v (Ne.symm hipg)
    · have hl2 : lookupA hid (setHostParent g.2 g.1 v hs) = some hh := by
        rw [setHostParent_lookup_ne hid g.2 g.1 v (fun he => hg he.symm) hs, hl]
      obtain ⟨h2, hh2, hmem, hnot, hnm, had⟩ := ih _ hid _ hl2
      refine ⟨h2, hh2, ?_, ?_, hnm, had⟩
      · intro ip hip
        rcases List.mem_cons.mp hip with hip | hip
        · exfalso
          exact hg ((congrArg Prod.snd hip).symm)
        · exact hmem ip hip
      · intro ip hip
        exact hnot ip (fun hr => hip (List.mem_cons_of_mem _ hr))

/-! The behaviour of the non-root cascade delete, characterised against
any (parent, child) edge whose child carries the deleted block: the
child's whole subtree vanishes from the enumeration, the child's host
bag is merged into the parent's, and the returned reparenting data is
exactly (child's bag, parent's block). -/
mutual
theorem removeT_spec (x : IPNet) : ∀ (t t2 : Alloc)
    (mv : List (IPAddr × Nat)) (pn : IPNet),
    removeT x false t = some (t2, mv, pn) →
    (netsOfT t).Nodup →
    (∀ nn ∈ netsOfT t, nn.addr = nn.netAddr) →
    x.addr = x.netAddr →
    (∀ b ∈ bagsOfT t, (b.2.map Prod.fst).Nodup) →
    ∀ p cc, (p, cc) ∈ edgesOfT t → cc.net = x →
      pn = p.net ∧ mv = cc.hosts ∧
      netsOfT t2 = (netsOfT t).filter (fun nn => decide (nn ∉ netsOfT cc)) ∧
      ∃ bag, lookupA p.net (bagsOfT t2) = some bag ∧
        ∀ e ∈ cc.hosts, lookupA e.1 bag = some e.2
  | .node nt nm ats hs cs, t2, mv, pn, h, hnd, hcanon, hxcanon, hbnd, p, cc,
      hedge, hccx => by
    rw [netsOfT_def, List.nodup_cons] at hnd
    have hcanonF : ∀ nn ∈ netsOfF cs, nn.addr = nn.netAddr := fun nn hnn =>
      hcanon nn (by rw [netsOfT_def]; exact List.mem_cons_of_mem _ hnn)
    have hbndF : ∀ b ∈ bagsOfF cs, (b.2.map Prod.fst).Nodup := fun b hb =>
      hbnd b (by
        rw [show bagsOfT (.node nt nm ats hs cs) = (nt, hs) :: bagsOfF cs from rfl]
        exact List.mem_cons_of_mem _ hb)
    rw [removeT] at h
    cases hf : List.find? (fun ch => ch.net.equalNet x) cs with
    | some cc0 =>
      rw [hf] at h
      cases h
      simp only [Bool.false_eq_true, if_false]
      have hcc0mem : cc0 ∈ cs := List.mem_of_find?_eq_some hf
      have hcc0x : cc0.net.equalNet x = true := by simpa using List.find?_some hf
      have hcc0net : cc0.net = x :=
        equalNet_eq_of_canon cc0.net x
          (hcanonF cc0.net (netsOfF_mem_of_mem cs cc0 hcc0mem)) hxcanon hcc0x
      simp only [edgesOfT, List.mem_append] at hedge
      rcases hedge with hedge | hedge
      · obtain ⟨c, hcmem, hce⟩ := List.mem_map.mp hedge
        have hp : p = Alloc.node nt nm ats hs cs := (congrArg Prod.fst hce).symm
        have hcc : cc = c := (congrArg Prod.snd hce).symm
        subst hcc
        have hccmem : cc ∈ cs := hcmem
        have hcceq : cc = cc0 :=
          subsF_unique cs hnd.2 cc cc0 (mem_subsF_of_mem cs cc hccmem)
            (mem_subsF_of_mem cs cc0 hcc0mem) (by rw [hccx, hcc0net])
        subst hcceq
        have hsubcc : ∀ nn ∈ netsOfT cc, nn ∈ netsOfF cs :=
          subsF_net_sub cs cc (mem_subsF_of_mem cs cc hccmem)
        refine ⟨by rw [hp]; rfl, rfl, ?_, ?_⟩
        · rw [show netsOfT (Alloc.node nt nm ats
            (cc.hosts.foldl (fun b g => insertA g.1 g.2 b) hs)
            (cs.filter (fun ch => !(ch.net.equalNet x)))) =
            nt :: netsOfF (cs.filter (fun ch => !(ch.net.equalNet x))) from rfl]
          rw [netsOfF_remove_child x cs cc hnd.2 hcanonF hxcanon hccmem hccx]
          rw [netsOfT_def, List.filter_cons_of_pos (by
            simp only [decide_eq_true_eq]
            exact fun hin => hnd.1 (hsubcc nt hin))]
        · refine ⟨cc.hosts.foldl (fun b g => insertA g.1 g.2 b) hs, ?_, ?_⟩
          · rw [hp]
            simp [bagsOfT, lookupA, Alloc.net]
          · intro e he
            have hknd : (cc.hosts.map Prod.fst).Nodup := by
              have := hbnd (cc.net, cc.hosts)
                (bags_mem_of_subsT (.node nt nm ats hs cs) cc
                  (List.mem_cons_of_mem _ (mem_subsF_of_mem cs cc hccmem)))
              exact this
            exact foldl_insertA_mem cc.hosts hs e hknd he
      · exfalso
        exact no_edge_of_root_net x cs hnd.2 cc0 hcc0mem hcc0net (p, cc) hedge hccx
    | none =>
      rw [hf] at h
      cases hrl : removeTL x false cs with
      | none =>
        rw [hrl] at h
        cases h
      | some res =>
        obtain ⟨cs2, mv0, pn0⟩ := res
        rw [hrl] at h
        cases h
        simp only [edgesOfT, List.mem_append] at hedge
        rcases hedge with hedge | hedge
        · obtain ⟨c, hcmem, hce⟩ := List.mem_map.mp hedge
          have hcc : cc = c := (congrArg Prod.snd hce).symm
          exfalso
          apply List.find?_eq_none.mp hf c hcmem
          show c.net.equalNet x = true
          rw [← hcc, hccx]
          exact equalNet_self x
        · obtain ⟨hpn, hmv, hnets, bag, hbag, hentries⟩ :=
            removeTL_spec x cs cs2 mv pn hrl hnd.2 hcanonF hxcanon hbndF
              p cc hedge hccx
          have hccsub : cc ∈ subsF cs := edgesF_child_sub cs (p, cc) hedge
          have hsubcc : ∀ nn ∈ netsOfT cc, nn ∈ netsOfF cs :=
            subsF_net_sub cs cc hccsub
          refine ⟨hpn, hmv, ?_, ?_⟩
          · rw [show netsOfT (Alloc.node nt nm ats hs cs2) =
              nt :: netsOfF cs2 from rfl]
            rw [hnets, netsOfT_def, List.filter_cons_of_pos (by
              simp only [decide_eq_true_eq]
              exact fun hin => hnd.1 (hsubcc nt hin))]
          · refine ⟨bag, ?_, hentries⟩
            have hpsub : p ∈ subsF cs := edgesF_parent_sub cs (p, cc) hedge
            have hpnet : p.net ∈ netsOfF cs :=
              subsF_net_sub cs p hpsub p.net (net_mem_netsOfT p)
            have hne : ¬(nt = p.net) := fun he => hnd.1 (he ▸ hpnet)
            rw [show bagsOfT (Alloc.node nt nm ats hs cs2) =
              (nt, hs) :: bagsOfF cs2 from rfl]
            simp only [lookupA, hne, if_neg, if_false]
            exact hbag

theorem removeTL_spec (x : IPNet) : ∀ (l : List Alloc) (l2 : List Alloc)
    (mv : List (IPAddr × Nat)) (pn : IPNet),
    removeTL x false l = some (l2, mv, pn) →
    (netsOfF l).Nodup →
    (∀ nn ∈ netsOfF l, nn.addr = nn.netAddr) →
    x.addr = x.netAddr →
    (∀ b ∈ bagsOfF l, (b.2.map Prod.fst).Nodup) →
    ∀ p cc, (p, cc) ∈ edgesOfF l → cc.net = x →
      pn = p.net ∧ mv = cc.hosts ∧
      netsOfF l2 = (netsOfF l).filter (fun nn => decide (nn ∉ netsOfT cc)) ∧
      ∃ bag, lookupA p.net (bagsOfF l2) = some bag ∧
        ∀ e ∈ cc.hosts, lookupA e.1 bag = some e.2
  | [], l2, mv, pn, h, _, _, _, _, p, cc, hedge, _ => by
    simp [edgesOfF] at hedge
  | c :: rest, l2, mv, pn, h, hnd, hcanon, hxcanon, hbnd, p, cc, hedge, hccx => by
    rw [show netsOfF (c :: rest) = netsOfT c ++ netsOfF rest from rfl,
      List.nodup_append] at hnd
    obtain ⟨hnd1, hnd2, hdisj⟩ := hnd
    have hcanonT : ∀ nn ∈ netsOfT c, nn.addr = nn.netAddr := fun nn hnn =>
      hcanon nn (by
        rw [show netsOfF (c :: rest) = netsOfT c ++ netsOfF rest from rfl]
        exact List.mem_append_left _ hnn)
    have hcanonR : ∀ nn ∈ netsOfF rest, nn.addr = nn.netAddr := fun nn hnn =>
      hcanon nn (by
        rw [show netsOfF (c :: rest) = netsOfT c ++ netsOfF rest from rfl]
        exact List.mem_append_right _ hnn)
    have hbndT : ∀ b ∈ bagsOfT c, (b.2.map Prod.fst).Nodup := fun b hb =>
      hbnd b (by
        rw [show bagsOfF (c :: rest) = bagsOfT c ++ bagsOfF rest from rfl]
        exact List.mem_append_left _ hb)
    have hbndR : ∀ b ∈ bagsOfF rest, (b.2.map Prod.fst).Nodup := fun b hb =>
      hbnd b (by
        rw [show bagsOfF (c :: rest) = bagsOfT c ++ bagsOfF rest from rfl]
        exact List.mem_append_right _ hb)
    rw [removeTL] at h
    cases hrt : removeT x false c with
    | some r2 =>
      obtain ⟨c2, mvt, pnt⟩ := r2
      rw [hrt] at h
      cases h
      simp only [edgesOfF, List.mem_append] at hedge
      rcases hedge with hedge | hedge
      · obtain ⟨hpn, hmv, hnets, bag, hbag, hentries⟩ :=
          removeT_spec x c c2 mv pn hrt hnd1 hcanonT hxcanon hbndT p cc
            hedge hccx
        have hccsub : cc ∈ subsT c := edgesT_child_sub c (p, cc) hedge
        have hsubcc : ∀ nn ∈ netsOfT cc, nn ∈ netsOfT c :=
          subsT_net_sub c cc hccsub
        refine ⟨hpn, hmv, ?_, ?_⟩
        · rw [show netsOfF (c2 :: rest) = netsOfT c2 ++ netsOfF rest from rfl,
            show netsOfF (c :: rest) = netsOfT c ++ netsOfF rest from rfl,
            List.filter_append, hnets]
          congr 1
          symm
          apply List.filter_eq_self.mpr
          intro nn hnn
          simp only [decide_eq_true_eq]
          exact fun hin => hdisj (hsubcc nn hin) hnn
        · refine ⟨bag, ?_, hentries⟩
          rw [show bagsOfF (c2 :: rest) = bagsOfT c2 ++ bagsOfF rest from rfl]
          exact lookupA_append_left p.net bag (bagsOfT c2) (bagsOfF rest) hbag
      · exfalso
        obtain ⟨nn, hnnmem, hnne⟩ := removeT_some_net x c (c2, mv, pn) hrt
        have hnnx : nn = x :=
          equalNet_eq_of_canon nn x (hcanonT nn hnnmem) hxcanon hnne
        have hxrest : x ∈ netsOfF rest :=
          hccx ▸ edgesF_child_net rest (p, cc) hedge
        exact hdisj (hnnx ▸ hnnmem) hxrest
    | none =>
      rw [hrt] at h
      cases hrl : removeTL x false rest with
      | none =>
        rw [hrl] at h
        cases h
      | some r2 =>
        obtain ⟨l2r, mv0, pn0⟩ := r2
        rw [hrl] at h
        cases h
        simp only [edgesOfF, List.mem_append] at hedge
        rcases hedge with hedge | hedge
        · exfalso
          have := removeT_none_no_edge x c hrt (p, cc) hedge
          rw [hccx, equalNet_self x] at this
          cases this
        · obtain ⟨hpn, hmv, hnets, bag, hbag, hentries⟩ :=
            removeTL_spec x rest l2r mv pn hrl hnd2 hcanonR hxcanon hbndR
              p cc hedge hccx
          have hccsub : cc ∈ subsF rest := edgesF_child_sub rest (p, cc) hedge
          have hsubcc : ∀ nn ∈ netsOfT cc, nn ∈ netsOfF rest :=
            subsF_net_sub rest cc hccsub
          refine ⟨hpn, hmv, ?_, ?_⟩
          · rw [show netsOfF (c :: l2r) = netsOfT c ++ netsOfF l2r from rfl,
              show netsOfF (c :: rest) = netsOfT c ++ netsOfF rest from rfl,
              List.filter_append, hnets]
            congr 1
            symm
            apply List.filter_eq_self.mpr
            intro nn hnn
            simp only [decide_eq_true_eq]
            exact fun hin => hdisj hnn (hsubcc nn hin)
          · refine ⟨bag, ?_, hentries⟩
            have hpsub : p ∈ subsF rest := edgesF_parent_sub rest (p, cc) hedge
            have hpnet : p.net ∈ netsOfF rest :=
              subsF_net_sub rest p hpsub p.net (net_mem_netsOfT p)
            rw [show bagsOfF (c :: l2r) = bagsOfT c ++ bagsOfF l2r from rfl]
            rw [lookupA_append_right p.net (bagsOfT c) (bagsOfF l2r) (by
              intro b hb hbe
              apply hdisj _ hpnet
              rw [← hbe]
              have : b.1 ∈ (bagsOfT c).map Prod.fst := List.mem_map_of_mem _ hb
              rw [bagsOfT_keys] at this
              exact this)]
            exact hbag
end

/-! ## C4: cascade delete -/

/-- C4 counterexample: tree 10.0.0.0/8 with child 10.0.0.0/16 holding
host h at 10.0.0.1.  Per the claim, RemoveAllocation of the /16 with
reparent_children = false cascade-deletes the hosts indexed at the
deleted node, dropping them from the tree's host indexes.  The code
instead re-indexes h at the deleted node's parent: afterwards the /8's
host bag holds h and h's back-reference is the /8. -/
theorem c4_cascade_delete_counterexample :
    (DB.mk "t"
      [Alloc.node ⟨.v4, 167772160, 8⟩ "A" [] []
        [Alloc.node ⟨.v4, 167772160, 16⟩ "B" [] [(⟨.v4, 167772161⟩, 0)] []]]
      [(0, Host.mk "h" [⟨.v4, 167772161⟩] [] [(⟨.v4, 167772161⟩, some ⟨.v4, 167772160, 16⟩)])]
      [] [(⟨.v4, 167772161⟩, 0)] 1).removeAllocation ⟨.v4, 167772160, 16⟩ false =
    .ok (DB.mk "t"
      [Alloc.node ⟨.v4, 167772160, 8⟩ "A" [] [(⟨.v4, 167772161⟩, 0)] []]
      [(0, Host.mk "h" [⟨.v4, 167772161⟩] [] [(⟨.v4, 167772161⟩, some ⟨.v4, 167772160, 8⟩)])]
      [] [(⟨.v4, 167772161⟩, 0)] 1) := by
  rfl

/-- C4 (amended): deleting a live allocation with reparent_children =
false detaches the node together with its whole subtree from the tree,
but the hosts indexed at the deleted node are not dropped: when the
node has a parent they are re-indexed in the parent's host bag with
their back-references moved to the parent, and when the node is a root
their back-references are set to nil; hosts indexed elsewhere - in
particular at the destroyed descendants - keep their back-references
unchanged, and the address index is untouched. -/
theorem c4_cascade_delete_reindexes_hosts (d : DB) (x : IPNet) (d2 : DB)
    (h : d.removeAllocation x false = .ok d2)
    (hnd : (netsOfF d.allocs).Nodup)
    (hcanon : ∀ nn ∈ netsOfF d.allocs, nn.addr = nn.netAddr)
    (hxcanon : x.addr = x.netAddr)
    (hbnd : ∀ b ∈ bagsOfF d.allocs, (b.2.map Prod.fst).Nodup) :
    d2.hostLookup = d.hostLookup ∧
    (∀ r ∈ d.allocs, r.net = x →
      netsOfF d2.allocs = (netsOfF d.allocs).filter (fun nn => decide (nn ∉ netsOfT r)) ∧
      ∀ hid hh, lookupA hid d.hosts = some hh →
        ∃ h2, lookupA hid d2.hosts = some h2 ∧
          (∀ ip, (ip, hid) ∈ r.hosts → h2.parentOf ip = none) ∧
          (∀ ip, (ip, hid) ∉ r.hosts → h2.parentOf ip = hh.parentOf ip) ∧
          h2.name = hh.name ∧ h2.addrs = hh.addrs) ∧
    (∀ p cc, (p, cc) ∈ edgesOfF d.allocs → cc.net = x →
      netsOfF d2.allocs = (netsOfF d.allocs).filter (fun nn => decide (nn ∉ netsOfT cc)) ∧
      (∃ bag, lookupA p.net (bagsOfF d2.allocs) = some bag ∧
        ∀ e ∈ cc.hosts, lookupA e.1 bag = some e.2) ∧
      ∀ hid hh, lookupA hid d.hosts = some hh →
        ∃ h2, lookupA hid d2.hosts = some h2 ∧
          (∀ ip, (ip, hid) ∈ cc.hosts → h2.parentOf ip = some p.net) ∧
          (∀ ip, (ip, hid) ∉ cc.hosts → h2.parentOf ip = hh.parentOf ip) ∧
          h2.name = hh.name ∧ h2.addrs = hh.addrs) := by
  rw [DB.removeAllocation] at h
  cases hfa : d.findAllocation x true with
  | none =>
    rw [hfa] at h
    cases h
  | some c =>
    rw [hfa] at h
    dsimp only at h
    obtain ⟨hcsub, hceq⟩ := findAllocation_exact_spec d x c hfa
    have hcnet : c.net = x :=
      equalNet_eq_of_canon c.net x
        (hcanon c.net (subsF_net_sub d.allocs c hcsub c.net (net_mem_netsOfT c)))
        hxcanon hceq
    by_cases hany : d.allocs.any (fun r => r.net.equalNet x) = true
    · rw [if_pos hany] at h
      simp only [Bool.false_eq_true, if_false] at h
      cases h
      refine ⟨rfl, ?_, ?_⟩
      · intro r hr hrx
        have hcr : c = r :=
          subsF_unique d.allocs hnd c r hcsub (mem_subsF_of_mem d.allocs r hr)
            (by rw [hcnet, hrx])
        subst hcr
        constructor
        · exact netsOfF_remove_child x d.allocs c hnd hcanon hxcanon hr hrx
        · intro hid hh hl
          exact reparentHosts_lookup none c.hosts d.hosts hid hh hl
      · intro p cc hedge hccx
        exfalso
        obtain ⟨r2, hr2, hr2e⟩ := List.any_eq_true.mp hany
        have hr2x : r2.net = x :=
          equalNet_eq_of_canon r2.net x
            (hcanon r2.net (netsOfF_mem_of_mem d.allocs r2 hr2)) hxcanon hr2e
        exact no_edge_of_root_net x d.allocs hnd r2 hr2 hr2x (p, cc) hedge hccx
    · rw [if_neg hany] at h
      cases hrl : removeTL x false d.allocs with
      | none =>
        rw [hrl] at h
        cases h
      | some res =>
        obtain ⟨l2, mv, pn⟩ := res
        rw [hrl] at h
        cases h
        refine ⟨rfl, ?_, ?_⟩
        · intro r hr hrx
          exfalso
          apply hany
          exact List.any_eq_true.mpr ⟨r, hr, by rw [hrx]; exact equalNet_self x⟩
        · intro p cc hedge hccx
          obtain ⟨hpn, hmv, hnets, bag, hbag, hentries⟩ :=
            removeTL_spec x d.allocs l2 mv pn hrl hnd hcanon hxcanon hbnd
              p cc hedge hccx
          refine ⟨hnets, ⟨bag, hbag, hentries⟩, ?_⟩
          intro hid hh hl
          subst hmv
          subst hpn
          exact reparentHosts_lookup (some p.net) cc.hosts d.hosts hid hh hl

/-- Witness for C4, instantiating the amended theorem's edge clause on
the counterexample database: the /16 is the child of the /8 and carries
the host. -/
theorem c4_cascade_delete_reindexes_hosts_witness :
    netsOfF (DB.mk "t"
        [Alloc.node ⟨.v4, 167772160, 8⟩ "A" [] [(⟨.v4, 167772161⟩, 0)] []]
        [(0, Host.mk "h" [⟨.v4, 167772161⟩] [] [(⟨.v4, 167772161⟩, some ⟨.v4, 167772160, 8⟩)])]
        [] [(⟨.v4, 167772161⟩, 0)] 1).allocs =
      (netsOfF (DB.mk "t"
        [Alloc.node ⟨.v4, 167772160, 8⟩ "A" [] []
          [Alloc.node ⟨.v4, 167772160, 16⟩ "B" [] [(⟨.v4, 167772161⟩, 0)] []]]
        [(0, Host.mk "h" [⟨.v4, 167772161⟩] [] [(⟨.v4, 167772161⟩, some ⟨.v4, 167772160, 16⟩)])]
        [] [(⟨.v4, 167772161⟩, 0)] 1).allocs).filter
        (fun nn => decide (nn ∉ netsOfT
          (Alloc.node ⟨.v4, 167772160, 16⟩ "B" [] [(⟨.v4, 167772161⟩, 0)] []))) ∧
    (∃ bag, lookupA (Alloc.node ⟨.v4, 167772160, 8⟩ "A" [] []
          [Alloc.node ⟨.v4, 167772160, 16⟩ "B" [] [(⟨.v4, 167772161⟩, 0)] []]).net
        (bagsOfF (DB.mk "t"
          [Alloc.node ⟨.v4, 167772160, 8⟩ "A" [] [(⟨.v4, 167772161⟩, 0)] []]
          [(0, Host.mk "h" [⟨.v4, 167772161⟩] [] [(⟨.v4, 167772161⟩, some ⟨.v4, 167772160, 8⟩)])]
          [] [(⟨.v4, 167772161⟩, 0)] 1).allocs) = some bag ∧
      ∀ e ∈ (Alloc.node ⟨.v4, 167772160, 16⟩ "B" [] [(⟨.v4, 167772161⟩, 0)] []).hosts,
        lookupA e.1 bag = some e.2) ∧
    (∀ hid hh, lookupA hid (DB.mk "t"
        [Alloc.node ⟨.v4, 167772160, 8⟩ "A" [] []
          [Alloc.node ⟨.v4, 167772160, 16⟩ "B" [] [(⟨.v4, 167772161⟩, 0)] []]]
        [(0, Host.mk "h" [⟨.v4, 167772161⟩] [] [(⟨.v4, 167772161⟩, some ⟨.v4, 167772160, 16⟩)])]
        [] [(⟨.v4, 167772161⟩, 0)] 1).hosts = some hh →
      ∃ h2, lookupA hid (DB.mk "t"
          [Alloc.node ⟨.v4, 167772160, 8⟩ "A" [] [(⟨.v4, 167772161⟩, 0)] []]
          [(0, Host.mk "h" [⟨.v4, 167772161⟩] [] [(⟨.v4, 167772161⟩, some ⟨.v4, 167772160, 8⟩)])]
          [] [(⟨.v4, 167772161⟩, 0)] 1).hosts = some h2 ∧
        (∀ ip, (ip, hid) ∈ (Alloc.node ⟨.v4, 167772160, 16⟩ "B" [] [(⟨.v4, 167772161⟩, 0)] []).hosts →
          h2.parentOf ip = some (Alloc.node ⟨.v4, 167772160, 8⟩ "A" [] []
            [Alloc.node ⟨.v4, 167772160, 16⟩ "B" [] [(⟨.v4, 167772161⟩, 0)] []]).net) ∧
        (∀ ip, (ip, hid) ∉ (Alloc.node ⟨.v4, 167772160, 16⟩ "B" [] [(⟨.v4, 167772161⟩, 0)] []).hosts →
          h2.parentOf ip = hh.parentOf ip) ∧
        h2.name = hh.name ∧ h2.addrs = hh.addrs) :=
  (c4_cascade_delete_reindexes_hosts
    (DB.mk "t"
      [Alloc.node ⟨.v4, 167772160, 8⟩ "A" [] []
        [Alloc.node ⟨.v4, 167772160, 16⟩ "B" [] [(⟨.v4, 167772161⟩, 0)] []]]
      [(0, Host.mk "h" [⟨.v4, 167772161⟩] [] [(⟨.v4, 167772161⟩, some ⟨.v4, 167772160, 16⟩)])]
      [] [(⟨.v4, 167772161⟩, 0)] 1)
    ⟨.v4, 167772160, 16⟩
    (DB.mk "t"
      [Alloc.node ⟨.v4, 167772160, 8⟩ "A" [] [(⟨.v4, 167772161⟩, 0)] []]
      [(0, Host.mk "h" [⟨.v4, 167772161⟩] [] [(⟨.v4, 167772161⟩, some ⟨.v4, 167772160, 8⟩)])]
      [] [(⟨.v4, 167772161⟩, 0)] 1)
    (by rfl) (by decide) (by decide) (by decide) (by decide)).2.2
    (Alloc.node ⟨.v4, 167772160, 8⟩ "A" [] []
      [Alloc.node ⟨.v4, 167772160, 16⟩ "B" [] [(⟨.v4, 167772161⟩, 0)] []])
    (Alloc.node ⟨.v4, 167772160, 16⟩ "B" [] [(⟨.v4, 167772161⟩, 0)] [])
    (by decide) rfl

/-- Witness for C10: a database holding only 10.0.0.0/8; a host with one
address inside it and one address (192.168.0.1) outside every
allocation. -/
theorem c10_addHost_orphan_safe_witness :
    (∃ d2 rec2,
      (DB.mk "t" [Alloc.node ⟨.v4, 167772160, 8⟩ "A" [] [] []] [] [] [] 0).addHost
        "h" [⟨.v4, 167772165⟩, ⟨.v4, 3232235521⟩] [] = .ok d2 ∧
      d2.hosts = [] ++ [(0, rec2)] ∧
      (∀ a ∈ [IPAddr.mk .v4 167772165, IPAddr.mk .v4 3232235521],
        d2.findHost a = some 0) ∧
      (∀ a ∈ [IPAddr.mk .v4 167772165, IPAddr.mk .v4 3232235521],
        findContL (hostToNet a)
          [Alloc.node ⟨.v4, 167772160, 8⟩ "A" [] [] []] = none →
        rec2.parentOf a = none)) ∧
    (DB.new "t").addHostV1 "h" [⟨.v4, 167772161⟩] [] = .error .nilDeref :=
  c10_addHost_orphan_safe
    (DB.mk "t" [Alloc.node ⟨.v4, 167772160, 8⟩ "A" [] [] []] [] [] [] 0)
    "h" [⟨.v4, 167772165⟩, ⟨.v4, 3232235521⟩] []
    (by simp) (by intro a ha; rfl)

/-! ## C1: arithmetic of canonical blocks -/

/-- Masking to a shorter prefix after masking to a longer one equals
masking to the shorter prefix directly. -/
theorem maskAddr_comp (b l1 l2 a : Nat) (h : l1 ≤ l2) :
    maskAddr b l1 (maskAddr b l2 a) = maskAddr b l1 a := by
  unfold maskAddr
  have hk : b - l2 ≤ b - l1 := Nat.sub_le_sub_left h b
  obtain ⟨d, hd⟩ := Nat.exists_eq_add_of_le hk
  rw [hd, pow_add, ← Nat.div_div_eq_div_mul, ← Nat.div_div_eq_div_mul,
    Nat.mul_div_cancel _ (Nat.pos_pow_of_pos _ (by norm_num))]

/-- Containment is transitive. -/
theorem containsNet_trans {a b c : IPNet} (h1 : a.containsNet b = true)
    (h2 : b.containsNet c = true) : a.containsNet c = true := by
  rw [IPNet.containsNet] at h1 h2 ⊢
  simp only [Bool.and_eq_true, fam_beq, decide_eq_true_eq] at h1 h2 ⊢
  obtain ⟨⟨hf1, hl1⟩, hm1⟩ := h1
  obtain ⟨⟨hf2, hl2⟩, hm2⟩ := h2
  refine ⟨⟨hf1.trans hf2, hl1.trans hl2⟩, ?_⟩
  have hb : a.fam.bits = b.fam.bits := by rw [hf1]
  have h3 := congrArg (maskAddr b.fam.bits a.len) hm2
  rw [maskAddr_comp _ _ _ _ hl1, maskAddr_comp _ _ _ _ hl1] at h3
  rw [hm1, hb]
  exact h3

/-- Two containers of a common block are nested; the one with the
shorter mask contains the other. -/
theorem containsNet_of_common {k1 k2 m : IPNet} (h1 : k1.containsNet m = true)
    (h2 : k2.containsNet m = true) (hle : k1.len ≤ k2.len) :
    k1.containsNet k2 = true := by
  rw [IPNet.containsNet] at h1 h2 ⊢
  simp only [Bool.and_eq_true, fam_beq, decide_eq_true_eq] at h1 h2 ⊢
  obtain ⟨⟨hf1, hl1⟩, hm1⟩ := h1
  obtain ⟨⟨hf2, hl2⟩, hm2⟩ := h2
  refine ⟨⟨hf1.trans hf2.symm, hle⟩, ?_⟩
  have hb : k2.fam.bits = k1.fam.bits := by rw [hf2, ← hf1]
  have h3 := congrArg (maskAddr k2.fam.bits k1.len) hm2
  rw [maskAddr_comp _ _ _ _ hle, maskAddr_comp _ _ _ _ hle, hb] at h3
  rw [hm1, ← h3]

/-- Two containers of a common block are comparable. -/
theorem containsNet_chain {k1 k2 m : IPNet} (h1 : k1.containsNet m = true)
    (h2 : k2.containsNet m = true) :
    k1.containsNet k2 = true ∨ k2.containsNet k1 = true := by
  rcases Nat.le_total k1.len k2.len with hle | hle
  · exact Or.inl (containsNet_of_common h1 h2 hle)
  · exact Or.inr (containsNet_of_common h2 h1 hle)

/-- Canonical blocks containing each other are equal. -/
theorem containsNet_antisymm {a b : IPNet} (ha : a.addr = a.netAddr)
    (hb : b.addr = b.netAddr) (h1 : a.containsNet b = true)
    (h2 : b.containsNet a = true) : a = b :=
  equalNet_eq_of_canon a b ha hb (by rw [IPNet.equalNet, h1, h2]; rfl)

/-- No block is strictly inside itself. -/
theorem strictInB_irrefl (m : IPNet) : strictInB m m = false := by
  rw [strictInB, containsNet_self]
  rfl

/-- A strict container of a canonical block has a strictly shorter mask. -/
theorem strictInB_len_lt {m k : IPNet} (hm : m.addr = m.netAddr)
    (hk : k.addr = k.netAddr) (h : strictInB m k = true) : k.len < m.len := by
  rw [strictInB, Bool.and_eq_true, Bool.not_eq_true'] at h
  obtain ⟨hc, hnc⟩ := h
  by_contra hge
  push_neg at hge
  have hle : k.len ≤ m.len := by
    rw [IPNet.containsNet] at hc
    simp only [Bool.and_eq_true, decide_eq_true_eq] at hc
    exact hc.1.2
  have heq : k.len = m.len := Nat.le_antisymm hle hge
  have hmk : m.containsNet k = true := by
    rw [IPNet.containsNet] at hc ⊢
    simp only [Bool.and_eq_true, fam_beq, decide_eq_true_eq] at hc ⊢
    obtain ⟨⟨hf, _⟩, hmask⟩ := hc
    refine ⟨⟨hf.symm, by omega⟩, ?_⟩
    rw [hf, heq] at hmask
    exact hmask.symm
  rw [hmk] at hnc
  cases hnc

/-- For canonical blocks, strict insideness is containment plus a longer
mask. -/
theorem strictInB_iff {m k : IPNet} (hm : m.addr = m.netAddr)
    (hk : k.addr = k.netAddr) :
    strictInB m k = true ↔ (k.containsNet m = true ∧ k.len < m.len) := by
  constructor
  · intro h
    refine ⟨?_, strictInB_len_lt hm hk h⟩
    rw [strictInB, Bool.and_eq_true] at h
    exact h.1
  · intro ⟨hc, hlt⟩
    rw [strictInB, hc, Bool.true_and, Bool.not_eq_true']
    by_contra hmc
    rw [Bool.not_eq_false] at hmc
    have hle : m.len ≤ k.len := by
      rw [IPNet.containsNet] at hmc
      simp only [Bool.and_eq_true, decide_eq_true_eq] at hmc
      exact hmc.1.2
    omega

/-- A canonical block contained in a distinct canonical block is
strictly inside it. -/
theorem strictInB_of_contains_ne {r x : IPNet} (hr : r.addr = r.netAddr)
    (hx : x.addr = x.netAddr) (hc : x.containsNet r = true) (hne : r ≠ x) :
    strictInB r x = true := by
  rw [strictInB, hc, Bool.true_and, Bool.not_eq_true']
  by_contra hrc
  rw [Bool.not_eq_false] at hrc
  exact hne (containsNet_antisymm hr hx hrc hc)

/-- Strict insideness of canonical blocks is transitive. -/
theorem strictInB_trans {m r x : IPNet} (hm : m.addr = m.netAddr)
    (hr : r.addr = r.netAddr) (hx : x.addr = x.netAddr)
    (h1 : strictInB m r = true) (h2 : strictInB r x = true) :
    strictInB m x = true := by
  rw [strictInB_iff hm hr] at h1
  rw [strictInB_iff hr hx] at h2
  rw [strictInB_iff hm hx]
  exact ⟨containsNet_trans h2.1 h1.1, by omega⟩

/-! ## C1: the Less order on blocks -/

/-- On blocks of one family, Less compares the 16-byte forms of the
masked addresses (the length branch is dead). -/
theorem less_same_fam (n n2 : IPNet) (h : n.fam = n2.fam) :
    n.less n2 = decide (to16 n.fam n.netAddr < to16 n2.fam n2.netAddr) := by
  rw [IPNet.less, if_neg (by simp [h])]
  simp

/-- Across families, Less is true exactly of a v4 left operand. -/
theorem less_diff_fam (n n2 : IPNet) (h : n.fam ≠ n2.fam) :
    n.less n2 = (n.fam == Fam.v4) := by
  rw [IPNet.less, if_pos h]

/-- The 16-byte form preserves strict order within one family. -/
theorem to16_lt_iff (f : Fam) (a b : Nat) : to16 f a < to16 f b ↔ a < b := by
  cases f <;> simp [to16]

/-- The 16-byte form is injective within one family. -/
theorem to16_inj (f : Fam) (a b : Nat) (h : to16 f a = to16 f b) : a = b := by
  cases f <;> simpa [to16] using h

/-- Less is transitive. -/
theorem less_trans_net {a b c : IPNet} (h1 : a.less b = true)
    (h2 : b.less c = true) : a.less c = true := by
  by_cases hab : a.fam = b.fam <;> by_cases hbc : b.fam = c.fam
  · rw [less_same_fam a b hab] at h1
    rw [less_same_fam b c hbc] at h2
    rw [less_same_fam a c (hab.trans hbc)]
    simp only [decide_eq_true_eq] at h1 h2 ⊢
    exact h1.trans h2
  · rw [less_diff_fam b c hbc] at h2
    rw [less_diff_fam a c (by rw [hab]; exact hbc)]
    rw [hab]
    exact h2
  · rw [less_diff_fam a b hab] at h1
    rw [less_diff_fam a c (by rw [← hbc]; exact hab)]
    exact h1
  · exfalso
    rw [less_diff_fam a b hab] at h1
    rw [less_diff_fam b c hbc] at h2
    rw [fam_beq, decide_eq_true_eq] at h1 h2
    rw [h1, h2] at hab
    exact hab rfl

/-- Less is asymmetric. -/
theorem less_asymm_net {a b : IPNet} (h1 : a.less b = true) :
    b.less a = false := by
  by_cases hab : a.fam = b.fam
  · rw [less_same_fam a b hab] at h1
    rw [less_same_fam b a hab.symm]
    simp only [decide_eq_true_eq] at h1
    simp only [decide_eq_false_iff_not]
    omega
  · rw [less_diff_fam a b hab] at h1
    rw [less_diff_fam b a (Ne.symm hab)]
    rw [fam_beq, decide_eq_true_eq] at h1
    rw [fam_beq, decide_eq_false_iff_not]
    intro h2
    rw [h1, h2] at hab
    exact hab rfl

/-- Distinct canonical blocks neither of which contains the other are
strictly Less-comparable. -/
theorem less_total_not_nested {a b : IPNet} (ha : a.addr = a.netAddr)
    (hb : b.addr = b.netAddr)
    (h1 : a.containsNet b = false) (h2 : b.containsNet a = false) :
    a.less b = true ∨ b.less a = true := by
  by_cases hf : a.fam = b.fam
  · rw [less_same_fam a b hf, less_same_fam b a hf.symm]
    simp only [decide_eq_true_eq]
    rcases Nat.lt_trichotomy (to16 a.fam a.netAddr) (to16 b.fam b.netAddr)
      with hlt | heq | hgt
    · exact Or.inl hlt
    · exfalso
      rw [hf] at heq
      have hne : a.netAddr = b.netAddr := to16_inj b.fam _ _ heq
      have haddr : a.addr = b.addr := by rw [ha, hb, hne]
      rcases Nat.le_total a.len b.len with hle | hle
      · have hc : a.containsNet b = true := by
          rw [IPNet.containsNet]
          simp [fam_beq, hf, hle, haddr]
        rw [h1] at hc
        cases hc
      · have hc : b.containsNet a = true := by
          rw [IPNet.containsNet]
          simp [fam_beq, hf.symm, hle, haddr]
        rw [h2] at hc
        cases hc
    · exact Or.inr hgt
  · rw [less_diff_fam a b hf, less_diff_fam b a (Ne.symm hf)]
    cases hfa : a.fam <;> cases hfb : b.fam <;> simp_all [fam_beq]

/-! ## C1: uniqueness of the sorted order -/

/-- Inserting an element comparable with every element of a strictly
sorted list keeps the list strictly sorted. -/
theorem orderedInsert_pairwise {α : Type} (r : α → α → Prop) [DecidableRel r]
    (htrans : ∀ a b c, r a b → r b c → r a c) (x : α) :
    ∀ l : List α, l.Pairwise r → (∀ y ∈ l, r x y ∨ r y x) →
      (l.orderedInsert r x).Pairwise r := by
  intro l
  induction l with
  | nil => intro _ _; simp [List.orderedInsert]
  | cons y t ih =>
    intro hs hcomp
    obtain ⟨hyt, hst⟩ := List.pairwise_cons.mp hs
    rw [List.orderedInsert]
    by_cases hxy : r x y
    · rw [if_pos hxy]
      refine List.pairwise_cons.mpr ⟨?_, hs⟩
      intro z hz
      rcases List.mem_cons.mp hz with hz | hz
      · rw [hz]; exact hxy
      · exact htrans x y z hxy (hyt z hz)
    · rw [if_neg hxy]
      have hyx : r y x :=
        (hcomp y (List.mem_cons_self y t)).resolve_left hxy
      refine List.pairwise_cons.mpr
        ⟨?_, ih hst (fun z hz => hcomp z (List.mem_cons_of_mem y hz))⟩
      intro z hz
      rcases (List.mem_orderedInsert r).mp hz with hz | hz
      · rw [hz]; exact hyx
      · exact hyt z hz

/-- Insertion sort of a pairwise-comparable list is strictly sorted. -/
theorem insertionSort_pairwise {α : Type} (r : α → α → Prop) [DecidableRel r]
    (htrans : ∀ a b c, r a b → r b c → r a c) :
    ∀ l : List α, l.Pairwise (fun a b => r a b ∨ r b a) →
      (List.insertionSort r l).Pairwise r := by
  intro l
  induction l with
  | nil => intro _; simp
  | cons x t ih =>
    intro hcomp
    obtain ⟨hxc, htc⟩ := List.pairwise_cons.mp hcomp
    rw [List.insertionSort]
    apply orderedInsert_pairwise r htrans x _ (ih htc)
    intro y hy
    exact hxc y ((List.perm_insertionSort r t).subset hy)

/-- Two strictly sorted lists that are permutations of one another are
equal. -/
theorem eq_of_perm_of_pairwise {α : Type} (r : α → α → Prop)
    (hasymm : ∀ a b, r a b → ¬ r b a) :
    ∀ l1 l2 : List α, l1.Perm l2 → l1.Pairwise r → l2.Pairwise r →
      l1 = l2 := by
  intro l1
  induction l1 with
  | nil =>
    intro l2 hp _ _
    exact hp.nil_eq
  | cons x t ih =>
    intro l2 hp hs1 hs2
    cases l2 with
    | nil => cases hp.symm.nil_eq
    | cons y u =>
      obtain ⟨hxt, hst⟩ := List.pairwise_cons.mp hs1
      obtain ⟨hyu, hsu⟩ := List.pairwise_cons.mp hs2
      have hxy : x = y := by
        by_contra hne
        have hx2 : x ∈ y :: u := hp.subset (List.mem_cons_self x t)
        have hy1 : y ∈ x :: t := hp.symm.subset (List.mem_cons_self y u)
        rcases List.mem_cons.mp hx2 with h | h
        · exact hne h
        · rcases List.mem_cons.mp hy1 with h2 | h2
          · exact hne h2.symm
          · exact hasymm x y (hxt y h2) (hyu x h)
      subst hxy
      rw [ih u hp.cons_inv hst hsu]

/-- Sorting by Less is permutation-invariant on lists of pairwise
strictly comparable allocations. -/
theorem sortAllocs_eq_of_perm (l1 l2 : List Alloc) (hp : l1.Perm l2)
    (hcomp : l1.Pairwise (fun a b => lessA a b ∨ lessA b a)) :
    sortAllocs l1 = sortAllocs l2 := by
  have htrans : ∀ a b c : Alloc, lessA a b → lessA b c → lessA a c :=
    fun a b c h1 h2 => less_trans_net h1 h2
  have hasymm : ∀ a b : Alloc, lessA a b → ¬ lessA b a := by
    intro a b h1 h2
    rw [lessA] at h1 h2
    rw [less_asymm_net h1] at h2
    cases h2
  have hcomp2 : l2.Pairwise (fun a b => lessA a b ∨ lessA b a) :=
    (hp.pairwise_iff (fun h => h.symm)).mp hcomp
  rw [sortAllocs, sortAllocs]
  apply eq_of_perm_of_pairwise lessA hasymm
  · exact (List.perm_insertionSort lessA l1).trans
      (hp.trans (List.perm_insertionSort lessA l2).symm)
  · exact insertionSort_pairwise lessA htrans l1 hcomp
  · exact insertionSort_pairwise lessA htrans l2 hcomp2

/-! ## C1: maximal blocks and the canonical forest -/

theorem mem_rootsB (S : List IPNet) (m : IPNet) :
    m ∈ rootsB S ↔ m ∈ S ∧ ∀ k ∈ S, strictInB m k = false := by
  rw [rootsB, List.mem_filter, Bool.not_eq_true', List.any_eq_false]
  constructor
  · rintro ⟨h1, h2⟩
    refine ⟨h1, fun k hk => ?_⟩
    exact Bool.eq_false_iff.mpr (h2 k hk)
  · rintro ⟨h1, h2⟩
    refine ⟨h1, fun k hk => ?_⟩
    rw [h2 k hk]
    exact Bool.false_ne_true

theorem mem_childrenB (S : List IPNet) (r m : IPNet) :
    m ∈ childrenB S r ↔ m ∈ S ∧ strictInB m r = true := by
  rw [childrenB, List.mem_filter]

/-- Every block of a canonical list sits inside some maximal block. -/
theorem rootsB_cover_len (S : List IPNet)
    (hcanon : ∀ n ∈ S, n.addr = n.netAddr) :
    ∀ (L : Nat) (m : IPNet), m ∈ S → m.len ≤ L →
      ∃ r ∈ rootsB S, r.containsNet m = true := by
  intro L
  induction L with
  | zero =>
    intro m hm hL
    refine ⟨m, ?_, containsNet_self m⟩
    rw [mem_rootsB]
    refine ⟨hm, fun k hk => ?_⟩
    by_contra hc
    rw [Bool.not_eq_false] at hc
    have := strictInB_len_lt (hcanon m hm) (hcanon k hk) hc
    omega
  | succ L ih =>
    intro m hm hL
    by_cases hanyc : ∃ k ∈ S, strictInB m k = true
    · obtain ⟨k, hk, hmk⟩ := hanyc
      have hlt := strictInB_len_lt (hcanon m hm) (hcanon k hk) hmk
      obtain ⟨r, hr, hrk⟩ := ih k hk (by omega)
      have hkm : k.containsNet m = true := by
        rw [strictInB, Bool.and_eq_true] at hmk
        exact hmk.1
      exact ⟨r, hr, containsNet_trans hrk hkm⟩
    · push_neg at hanyc
      refine ⟨m, ?_, containsNet_self m⟩
      rw [mem_rootsB]
      refine ⟨hm, fun k hk => ?_⟩
      exact Bool.eq_false_iff.mpr (hanyc k hk)

theorem rootsB_cover (S : List IPNet) (hcanon : ∀ n ∈ S, n.addr = n.netAddr)
    (m : IPNet) (hm : m ∈ S) : ∃ r ∈ rootsB S, r.containsNet m = true :=
  rootsB_cover_len S hcanon m.len m hm (Nat.le_refl _)

/-- Distinct maximal blocks do not contain one another. -/
theorem rootsB_not_nested (S : List IPNet)
    (hcanon : ∀ n ∈ S, n.addr = n.netAddr) {r1 r2 : IPNet}
    (h1 : r1 ∈ rootsB S) (h2 : r2 ∈ rootsB S) (hne : r1 ≠ r2) :
    r1.containsNet r2 = false := by
  obtain ⟨hm1, _⟩ := (mem_rootsB S r1).mp h1
  obtain ⟨hm2, hmax2⟩ := (mem_rootsB S r2).mp h2
  by_contra hc
  rw [Bool.not_eq_false] at hc
  have hstr := strictInB_of_contains_ne (hcanon r2 hm2) (hcanon r1 hm1) hc
    (Ne.symm hne)
  rw [hmax2 r1 hm1] at hstr
  cases hstr

/-- Distinct maximal blocks are strictly Less-comparable. -/
theorem rootsB_comparable (S : List IPNet)
    (hcanon : ∀ n ∈ S, n.addr = n.netAddr) {r1 r2 : IPNet}
    (h1 : r1 ∈ rootsB S) (h2 : r2 ∈ rootsB S) (hne : r1 ≠ r2) :
    r1.less r2 = true ∨ r2.less r1 = true :=
  less_total_not_nested
    (hcanon r1 ((mem_rootsB S r1).mp h1).1)
    (hcanon r2 ((mem_rootsB S r2).mp h2).1)
    (rootsB_not_nested S hcanon h1 h2 hne)
    (rootsB_not_nested S hcanon h2 h1 (Ne.symm hne))

theorem length_filter_lt_of_mem {α : Type} (p : α → Bool) :
    ∀ (l : List α) (a : α), a ∈ l → p a = false →
      (l.filter p).length < l.length := by
  intro l
  induction l with
  | nil => intro a ha _; cases ha
  | cons x t ih =>
    intro a ha hpa
    rcases List.mem_cons.mp ha with ha | ha
    · subst ha
      rw [List.filter_cons_of_neg (by rw [hpa]; exact Bool.false_ne_true)]
      have := List.length_filter_le p t
      simp only [List.length_cons]
      omega
    · rw [List.filter_cons]
      by_cases hx : p x = true
      · rw [if_pos hx]
        simp only [List.length_cons]
        exact Nat.succ_lt_succ (ih a ha hpa)
      · rw [if_neg hx]
        simp only [List.length_cons]
        exact Nat.lt_succ_of_lt (ih a ha hpa)

theorem childrenB_length_lt (S : List IPNet) (r : IPNet) (hr : r ∈ S) :
    (childrenB S r).length < S.length :=
  length_filter_lt_of_mem _ S r hr (strictInB_irrefl r)

theorem buildN_nil (nmf : IPNet → String)
    (atf : IPNet → List (String × String)) :
    ∀ f, buildN nmf atf f [] = []
  | 0 => rfl
  | _ + 1 => rfl

/-- Any fuel at least the list length produces the same canonical
forest. -/
theorem buildN_fuel (nmf : IPNet → String)
    (atf : IPNet → List (String × String)) :
    ∀ (f1 f2 : Nat) (S : List IPNet), S.length ≤ f1 → S.length ≤ f2 →
      buildN nmf atf f1 S = buildN nmf atf f2 S := by
  intro f1
  induction f1 with
  | zero =>
    intro f2 S h1 _
    have : S = [] := List.length_eq_zero.mp (Nat.le_zero.mp h1)
    subst this
    rw [buildN_nil, buildN_nil]
  | succ f1 ih =>
    intro f2 S h1 h2
    cases S with
    | nil => rw [buildN_nil, buildN_nil]
    | cons s0 srest =>
      cases f2 with
      | zero => simp at h2
      | succ f2 =>
        rw [buildN, buildN]
        congr 1
        apply List.map_congr_left
        intro r hr
        have hrS : r ∈ s0 :: srest := ((mem_rootsB _ r).mp hr).1
        have hlt := childrenB_length_lt (s0 :: srest) r hrS
        congr 1
        apply ih
        · omega
        · omega

/-! ## C1: structure of the canonical forest -/

theorem mem_buildN_succ (nmf : IPNet → String)
    (atf : IPNet → List (String × String)) (f : Nat) (S : List IPNet)
    (t : Alloc) :
    t ∈ buildN nmf atf (f + 1) S ↔
      ∃ r ∈ rootsB S,
        t = Alloc.node r (nmf r) (atf r) []
          (buildN nmf atf f (childrenB S r)) := by
  rw [buildN, sortAllocs, (List.perm_insertionSort lessA _).mem_iff]
  simp only [List.mem_map]
  constructor
  · rintro ⟨r, hr, rfl⟩
    exact ⟨r, hr, rfl⟩
  · rintro ⟨r, hr, rfl⟩
    exact ⟨r, hr, rfl⟩

theorem mem_netsOfF_iff : ∀ (l : List Alloc) (nn : IPNet),
    nn ∈ netsOfF l ↔ ∃ t ∈ l, nn ∈ netsOfT t := by
  intro l
  induction l with
  | nil => intro nn; rw [netsOfF]; simp
  | cons t r ih =>
    intro nn
    rw [netsOfF, List.mem_append, ih]
    constructor
    · rintro (h | ⟨u, hu, hnu⟩)
      · exact ⟨t, List.mem_cons_self t r, h⟩
      · exact ⟨u, List.mem_cons_of_mem t hu, hnu⟩
    · rintro ⟨u, hu, hnu⟩
      rcases List.mem_cons.mp hu with rfl | hu
      · exact Or.inl hnu
      · exact Or.inr ⟨u, hu, hnu⟩

/-- Every block anywhere in the canonical forest of S belongs to S. -/
theorem buildN_netsOfF_sub (nmf : IPNet → String)
    (atf : IPNet → List (String × String)) :
    ∀ (f : Nat) (S : List IPNet), S.length ≤ f →
      ∀ nn ∈ netsOfF (buildN nmf atf f S), nn ∈ S := by
  intro f
  induction f with
  | zero =>
    intro S h nn hnn
    rw [List.length_eq_zero.mp (Nat.le_zero.mp h), buildN_nil] at hnn
    rw [netsOfF] at hnn
    cases hnn
  | succ f ih =>
    intro S hS nn hnn
    obtain ⟨t, ht, hnt⟩ := (mem_netsOfF_iff _ nn).mp hnn
    obtain ⟨r, hr, rfl⟩ := (mem_buildN_succ nmf atf f S t).mp ht
    rw [netsOfT_def] at hnt
    rcases List.mem_cons.mp hnt with rfl | hnt
    · exact ((mem_rootsB S nn).mp hr).1
    · have hrS : r ∈ S := ((mem_rootsB S r).mp hr).1
      have hlt := childrenB_length_lt S r hrS
      have := ih (childrenB S r) (by omega) nn hnt
      exact ((mem_childrenB S r nn).mp this).1

/-- The container search fails on a list of subtrees none of whose top
blocks contains the target. -/
theorem findContL_eq_none (x : IPNet) :
    ∀ l : List Alloc, (∀ t ∈ l, t.net.containsNet x = false) →
      findContL x l = none := by
  intro l
  induction l with
  | nil => intro _; rfl
  | cons t r ih =>
    intro h
    rw [findContL,
      (findCont_eq_none_iff x t).mpr (h t (List.mem_cons_self t r)),
      ih (fun u hu => h u (List.mem_cons_of_mem t hu))]

/-- The insertion descent fails on a list of subtrees none of whose top
blocks contains the new block. -/
theorem insertTL_none (x : IPNet) (nm : String)
    (ats : List (String × String)) :
    ∀ l : List Alloc, (∀ t ∈ l, t.net.containsNet x = false) →
      insertTL x nm ats l = none := by
  intro l
  induction l with
  | nil => intro _; rfl
  | cons c rest ih =>
    intro h
    rw [insertTL,
      if_neg (by rw [h c (List.mem_cons_self c rest)]; exact Bool.false_ne_true),
      ih (fun u hu => h u (List.mem_cons_of_mem c hu))]

/-- The top-level blocks of the canonical forest are exactly the
maximal blocks, up to order. -/
theorem buildN_map_net_perm (nmf : IPNet → String)
    (atf : IPNet → List (String × String)) (f : Nat) (S : List IPNet) :
    ((buildN nmf atf (f + 1) S).map Alloc.net).Perm (rootsB S) := by
  rw [buildN, sortAllocs]
  have h2 := (List.perm_insertionSort lessA
    ((rootsB S).map (fun r => Alloc.node r (nmf r) (atf r) []
      (buildN nmf atf f (childrenB S r))))).map Alloc.net
  rw [List.map_map] at h2
  have h3 : (rootsB S).map
      (Alloc.net ∘ fun r => Alloc.node r (nmf r) (atf r) []
        (buildN nmf atf f (childrenB S r))) = (rootsB S).map id := by
    apply List.map_congr_left
    intro r _
    rfl
  rw [h3, List.map_id] at h2
  exact h2

theorem buildN_nodup (nmf : IPNet → String)
    (atf : IPNet → List (String × String)) (f : Nat) (S : List IPNet)
    (hnd : S.Nodup) : (buildN nmf atf (f + 1) S).Nodup := by
  have hperm := buildN_map_net_perm nmf atf f S
  have hroots : (rootsB S).Nodup := hnd.filter _
  exact (hperm.nodup_iff.mpr hroots).of_map

theorem rootsB_pairwise_comp (S : List IPNet)
    (hcanon : ∀ n ∈ S, n.addr = n.netAddr) (hnd : S.Nodup) :
    (rootsB S).Pairwise (fun a b => a.less b = true ∨ b.less a = true) := by
  have hroots : (rootsB S).Nodup := hnd.filter _
  exact hroots.imp_of_mem
    (fun {a b} ha hb hne => rootsB_comparable S hcanon ha hb hne)

theorem buildN_pairwise_comp (nmf : IPNet → String)
    (atf : IPNet → List (String × String)) (f : Nat) (S : List IPNet)
    (hcanon : ∀ n ∈ S, n.addr = n.netAddr) (hnd : S.Nodup) :
    (buildN nmf atf (f + 1) S).Pairwise
      (fun a b => lessA a b ∨ lessA b a) := by
  have hn : (((buildN nmf atf (f + 1) S).map Alloc.net)).Pairwise
      (fun a b => a.less b = true ∨ b.less a = true) :=
    ((buildN_map_net_perm nmf atf f S).pairwise_iff
      (fun h => h.symm)).mpr (rootsB_pairwise_comp S hcanon hnd)
  exact List.pairwise_map.mp hn

/-- The insertion descent at a list with a unique containing element
replaces exactly that element by its surgered form. -/
theorem insertTL_unique (x : IPNet) (nm : String)
    (ats : List (String × String)) :
    ∀ (l : List Alloc) (rc : Alloc), rc ∈ l → l.Nodup →
      rc.net.containsNet x = true →
      (∀ a ∈ l, a ≠ rc → a.net.containsNet x = false) →
      insertTL x nm ats l = some
        (l.map (fun a => if a = rc then (insertT x nm ats rc).1 else a),
         (insertT x nm ats rc).2) := by
  intro l
  induction l with
  | nil => intro rc h; cases h
  | cons c rest ih =>
    intro rc hrc hnd hcont hothers
    rw [insertTL]
    by_cases hc : c.net.containsNet x = true
    · have hceq : c = rc := by
        by_contra hne
        rw [hothers c (List.mem_cons_self c rest) hne] at hc
        cases hc
      subst hceq
      rw [if_pos hc]
      have hnotin : c ∉ rest := (List.nodup_cons.mp hnd).1
      have hrest : rest.map
          (fun a => if a = c then (insertT x nm ats c).1 else a) = rest := by
        have : ∀ a ∈ rest,
            (if a = c then (insertT x nm ats c).1 else a) = id a := by
          intro a ha
          have hne2 : a ≠ c := fun he => hnotin (he ▸ ha)
          rw [if_neg hne2]
          rfl
        rw [List.map_congr_left this, List.map_id]
      rw [List.map_cons, if_pos rfl, hrest]
    · rw [if_neg hc]
      have hne : c ≠ rc := by
        intro he
        rw [he, hcont] at hc
        exact hc rfl
      have hrc2 : rc ∈ rest := by
        rcases List.mem_cons.mp hrc with he | h
        · exact absurd he.symm hne
        · exact h
      rw [ih rc hrc2 (List.nodup_cons.mp hnd).2 hcont
        (fun a ha => hothers a (List.mem_cons_of_mem c ha)),
        List.map_cons, if_neg hne]

/-! ## C1: geometry of root insertion (no container of the new block) -/

/-- When a block does not contain the new block, strict insideness of
that block in the new block is plain containment. -/
theorem strictInB_eq_contains_of_nc {r x : IPNet}
    (hnc : r.containsNet x = false) : strictInB r x = x.containsNet r := by
  rw [strictInB, hnc, Bool.not_false, Bool.and_true]

/-- Appending a block contained in no existing block appends it to the
maximal blocks and drops the maximal blocks now strictly inside it. -/
theorem rootsB_append_nocont (S : List IPNet) (x : IPNet)
    (hnc : ∀ k ∈ S, k.containsNet x = false) :
    rootsB (S ++ [x]) =
      (rootsB S).filter (fun r => !(strictInB r x)) ++ [x] := by
  rw [rootsB, List.filter_append]
  congr 1
  · rw [rootsB, List.filter_filter]
    apply List.filter_congr
    intro m _
    rw [List.any_append, List.any_cons, List.any_nil, Bool.or_false,
      Bool.not_or, Bool.and_comm]
  · have hpx : ((S ++ [x]).any (fun k => strictInB x k)) = false := by
      rw [List.any_eq_false]
      intro k hk
      rcases List.mem_append.mp hk with hk | hk
      · rw [strictInB, hnc k hk, Bool.false_and]
        exact Bool.false_ne_true
      · rw [List.mem_singleton] at hk
        subst hk
        rw [strictInB_irrefl]
        exact Bool.false_ne_true
    rw [List.filter_cons_of_pos (by rw [hpx]; rfl), List.filter_nil]

/-- Appending a block strictly inside no block of the list leaves every
old block's strict-inside set unchanged. -/
theorem childrenB_append_notin (S : List IPNet) (x r : IPNet)
    (h : strictInB x r = false) :
    childrenB (S ++ [x]) r = childrenB S r := by
  rw [childrenB, childrenB, List.filter_append,
    List.filter_cons_of_neg (by rw [h]; exact Bool.false_ne_true),
    List.filter_nil, List.append_nil]

theorem childrenB_append_self (S : List IPNet) (x : IPNet) :
    childrenB (S ++ [x]) x = childrenB S x := by
  rw [childrenB, childrenB, List.filter_append,
    List.filter_cons_of_neg (by rw [strictInB_irrefl]; exact Bool.false_ne_true),
    List.filter_nil, List.append_nil]

/-- When no block of a canonical list contains the new block, the
maximal blocks of the new block's strict inside are exactly the maximal
blocks of the list that fall strictly inside it. -/
theorem rootsB_childrenB_nocont (S : List IPNet) (x : IPNet)
    (hcanon : ∀ n ∈ S, n.addr = n.netAddr) (hx : x.addr = x.netAddr)
    (hnc : ∀ k ∈ S, k.containsNet x = false) (hxS : x ∉ S) :
    rootsB (childrenB S x) = (rootsB S).filter (fun m => strictInB m x) := by
  rw [rootsB, rootsB, childrenB, List.filter_filter, List.filter_filter]
  apply List.filter_congr
  intro m hm
  cases hmx : strictInB m x with
  | false => rw [Bool.and_false, Bool.false_and]
  | true =>
    rw [Bool.and_true, Bool.true_and]
    have hae : ((S.filter (fun m2 => strictInB m2 x)).any
        (fun k => strictInB m k)) = (S.any (fun k => strictInB m k)) := by
      cases hany : S.any (fun k => strictInB m k) with
      | true =>
        obtain ⟨k, hk, hks⟩ := List.any_eq_true.mp hany
        have hkx : strictInB k x = true := by
          have hkm : k.containsNet m = true := by
            rw [strictInB, Bool.and_eq_true] at hks
            exact hks.1
          have hxm : x.containsNet m = true := by
            rw [strictInB, Bool.and_eq_true] at hmx
            exact hmx.1
          rcases containsNet_chain hkm hxm with hc | hc
          · rw [hnc k hk] at hc
            cases hc
          · apply strictInB_of_contains_ne (hcanon k hk) hx hc
            intro he
            rw [he] at hk
            exact hxS hk
        exact List.any_eq_true.mpr
          ⟨k, List.mem_filter.mpr ⟨hk, hkx⟩, hks⟩
      | false =>
        rw [List.any_eq_false] at hany ⊢
        intro k hk
        exact hany k (List.mem_filter.mp hk).1
    rw [hae]

/-- Inside a strict sub-block, the strict-inside sets relative to the
restricted list and to the full list agree. -/
theorem childrenB_childrenB (S : List IPNet) (x r : IPNet)
    (hcanon : ∀ n ∈ S, n.addr = n.netAddr) (hx : x.addr = x.netAddr)
    (hr : r.addr = r.netAddr) (hrx : strictInB r x = true) :
    childrenB (childrenB S x) r = childrenB S r := by
  rw [childrenB, childrenB, childrenB, List.filter_filter]
  apply List.filter_congr
  intro m hm
  cases hmr : strictInB m r with
  | false => rw [Bool.false_and]
  | true =>
    rw [Bool.true_and]
    exact strictInB_trans (hcanon m hm) hr hx hmr hrx

/-- Root insertion: when no block of S contains x, splitting the
canonical forest of S into the subtrees adopted by x (those whose block
x contains) and the kept subtrees, and sorting x's new node into the
kept ones, yields the canonical forest of S with x added. This is
exactly the surgery of DB.AddAllocation's root branch on a database
whose allocation forest is canonical. -/
theorem buildN_root_insert (nmf : IPNet → String)
    (atf : IPNet → List (String × String))
    (f : Nat) (S : List IPNet) (x : IPNet)
    (hcanon : ∀ n ∈ S, n.addr = n.netAddr) (hnd : S.Nodup)
    (hx : x.addr = x.netAddr) (hxS : x ∉ S)
    (hnc : ∀ k ∈ S, k.containsNet x = false)
    (hf : S.length < f) :
    sortAllocs ((buildN nmf atf f S).filter
        (fun c => !(x.containsNet c.net)) ++
      [Alloc.node x (nmf x) (atf x) []
        (sortAllocs ((buildN nmf atf f S).filter
          (fun c => x.containsNet c.net)))]) =
    buildN nmf atf f (S ++ [x]) := by
  obtain ⟨f', rfl⟩ : ∃ f2, f = f2 + 1 := ⟨f - 1, by omega⟩
  have hSf : S.length ≤ f' := by omega
  have hSx_len : (childrenB S x).length ≤ f' := by
    have h1 : (childrenB S x).length ≤ S.length := by
      rw [childrenB]
      exact List.length_filter_le _ _
    omega
  have hp1 : (buildN nmf atf (f' + 1) S).Perm
      ((rootsB S).map (fun r => Alloc.node r (nmf r) (atf r) []
        (buildN nmf atf f' (childrenB S r)))) := by
    rw [buildN, sortAllocs]
    exact List.perm_insertionSort lessA _
  have hA : sortAllocs ((buildN nmf atf (f' + 1) S).filter
      (fun c => x.containsNet c.net)) =
      buildN nmf atf f' (childrenB S x) := by
    have h1 : buildN nmf atf f' (childrenB S x) =
        buildN nmf atf ((childrenB S x).length + 1) (childrenB S x) :=
      buildN_fuel nmf atf f' _ _ hSx_len (Nat.le_succ_of_le (Nat.le_refl _))
    rw [h1]
    conv_rhs => rw [buildN]
    rw [rootsB_childrenB_nocont S x hcanon hx hnc hxS]
    have h2 : (((rootsB S).filter (fun m => strictInB m x)).map
        (fun r => Alloc.node r (nmf r) (atf r) []
          (buildN nmf atf (childrenB S x).length
            (childrenB (childrenB S x) r)))) =
        (((rootsB S).filter (fun m => strictInB m x)).map
        (fun r => Alloc.node r (nmf r) (atf r) []
          (buildN nmf atf f' (childrenB S r)))) := by
      apply List.map_congr_left
      intro r hr
      have hrx : strictInB r x = true := (List.mem_filter.mp hr).2
      have hrS : r ∈ S := ((mem_rootsB S r).mp (List.mem_filter.mp hr).1).1
      have hrin : r ∈ childrenB S x := (mem_childrenB S x r).mpr ⟨hrS, hrx⟩
      rw [childrenB_childrenB S x r hcanon hx (hcanon r hrS) hrx]
      congr 1
      apply buildN_fuel
      · rw [← childrenB_childrenB S x r hcanon hx (hcanon r hrS) hrx]
        have := childrenB_length_lt (childrenB S x) r hrin
        omega
      · have := childrenB_length_lt S r hrS
        omega
    rw [h2]
    apply sortAllocs_eq_of_perm
    · have hp2 := hp1.filter (fun c => x.containsNet c.net)
      rw [List.filter_map] at hp2
      have h3 : (rootsB S).filter
          ((fun c => x.containsNet c.net) ∘
            (fun r => Alloc.node r (nmf r) (atf r) []
              (buildN nmf atf f' (childrenB S r)))) =
          (rootsB S).filter (fun m => strictInB m x) := by
        apply List.filter_congr
        intro r hr
        have hrS : r ∈ S := ((mem_rootsB S r).mp hr).1
        show x.containsNet r = strictInB r x
        rw [strictInB_eq_contains_of_nc (hnc r hrS)]
      rw [h3] at hp2
      exact hp2
    · exact List.Pairwise.sublist (List.filter_sublist _)
        (buildN_pairwise_comp nmf atf f' S hcanon hnd)
  have hK : ((buildN nmf atf (f' + 1) S).filter
      (fun c => !(x.containsNet c.net))).Perm
      (((rootsB S).filter (fun r => !(strictInB r x))).map
        (fun r => Alloc.node r (nmf r) (atf r) []
          (buildN nmf atf f' (childrenB S r)))) := by
    have hp2 := hp1.filter (fun c => !(x.containsNet c.net))
    rw [List.filter_map] at hp2
    have h3 : (rootsB S).filter
        ((fun c => !(x.containsNet c.net)) ∘
          (fun r => Alloc.node r (nmf r) (atf r) []
            (buildN nmf atf f' (childrenB S r)))) =
        (rootsB S).filter (fun r => !(strictInB r x)) := by
      apply List.filter_congr
      intro r hr
      have hrS : r ∈ S := ((mem_rootsB S r).mp hr).1
      show ((!(x.containsNet r)) = (!(strictInB r x)))
      rw [strictInB_eq_contains_of_nc (hnc r hrS)]
    rw [h3] at hp2
    exact hp2
  have hR : buildN nmf atf (f' + 1) (S ++ [x]) =
      sortAllocs ((((rootsB S).filter (fun r => !(strictInB r x))).map
          (fun r => Alloc.node r (nmf r) (atf r) []
            (buildN nmf atf f' (childrenB S r)))) ++
        [Alloc.node x (nmf x) (atf x) []
          (buildN nmf atf f' (childrenB S x))]) := by
    rw [buildN, rootsB_append_nocont S x hnc, List.map_append]
    congr 2
    · apply List.map_congr_left
      intro r hr
      have hrS : r ∈ S := ((mem_rootsB S r).mp (List.mem_filter.mp hr).1).1
      rw [childrenB_append_notin S x r
        (by rw [strictInB, hnc r hrS, Bool.false_and])]
    · rw [List.map_cons, List.map_nil, childrenB_append_self]
  rw [hA, hR]
  apply sortAllocs_eq_of_perm
  · exact List.Perm.append hK (List.Perm.refl _)
  · rw [List.pairwise_append]
    refine ⟨List.Pairwise.sublist (List.filter_sublist _)
      (buildN_pairwise_comp nmf atf f' S hcanon hnd), by simp, ?_⟩
    intro a ha b hb
    rw [List.mem_singleton] at hb
    subst hb
    have hmem := List.mem_filter.mp ha
    have hfp : x.containsNet a.net = false := by
      have h4 := hmem.2
      rw [Bool.not_eq_true'] at h4
      exact h4
    obtain ⟨r, hr, rfl⟩ := (mem_buildN_succ nmf atf f' S a).mp hmem.1
    have hrS : r ∈ S := ((mem_rootsB S r).mp hr).1
    exact less_total_not_nested (hcanon r hrS) hx (hnc r hrS) hfp

/-! ## C1: geometry of descent insertion (some block contains the new
block) -/

theorem lessA_trans (a b c : Alloc) (h1 : lessA a b) (h2 : lessA b c) :
    lessA a c :=
  less_trans_net h1 h2

theorem lessA_asymm (a b : Alloc) (h1 : lessA a b) : ¬ lessA b a := by
  intro h2
  rw [lessA] at h1 h2
  rw [less_asymm_net h1] at h2
  cases h2

theorem buildN_perm_map (nmf : IPNet → String)
    (atf : IPNet → List (String × String)) (f : Nat) (S : List IPNet) :
    (buildN nmf atf (f + 1) S).Perm ((rootsB S).map (fun r =>
      Alloc.node r (nmf r) (atf r) [] (buildN nmf atf f (childrenB S r)))) := by
  rw [buildN, sortAllocs]
  exact List.perm_insertionSort lessA _

theorem buildN_sorted (nmf : IPNet → String)
    (atf : IPNet → List (String × String)) (f : Nat) (S : List IPNet)
    (hcanon : ∀ n ∈ S, n.addr = n.netAddr) (hnd : S.Nodup) :
    (buildN nmf atf (f + 1) S).Pairwise lessA := by
  rw [buildN, sortAllocs]
  apply insertionSort_pairwise lessA lessA_trans
  exact List.pairwise_map.mpr (rootsB_pairwise_comp S hcanon hnd)

/-- At most one maximal block contains any given block. -/
theorem rootsB_unique_cont (S : List IPNet)
    (hcanon : ∀ n ∈ S, n.addr = n.netAddr) (x : IPNet) {r1 r2 : IPNet}
    (h1 : r1 ∈ rootsB S) (h2 : r2 ∈ rootsB S)
    (hc1 : r1.containsNet x = true) (hc2 : r2.containsNet x = true) :
    r1 = r2 := by
  by_contra hne
  rcases containsNet_chain hc1 hc2 with hc | hc
  · rw [rootsB_not_nested S hcanon h1 h2 hne] at hc
    cases hc
  · rw [rootsB_not_nested S hcanon h2 h1 (Ne.symm hne)] at hc
    cases hc

/-- Appending a block that some block of the canonical list contains
leaves the maximal blocks unchanged. -/
theorem rootsB_append_cont (S : List IPNet) (x : IPNet)
    (hcanon : ∀ n ∈ S, n.addr = n.netAddr) (hx : x.addr = x.netAddr)
    (hxS : x ∉ S) {k0 : IPNet} (hk0 : k0 ∈ S)
    (hk0c : k0.containsNet x = true) :
    rootsB (S ++ [x]) = rootsB S := by
  rw [rootsB, rootsB, List.filter_append]
  have hxk0 : strictInB x k0 = true :=
    strictInB_of_contains_ne hx (hcanon k0 hk0) hk0c
      (by intro he; rw [← he] at hk0; exact hxS hk0)
  have hxfilter : [x].filter
      (fun m => !((S ++ [x]).any (fun k => strictInB m k))) = [] := by
    have hany : ((S ++ [x]).any (fun k => strictInB x k)) = true :=
      List.any_eq_true.mpr ⟨k0, List.mem_append.mpr (Or.inl hk0), hxk0⟩
    rw [List.filter_cons_of_neg (by rw [hany]; simp), List.filter_nil]
  rw [hxfilter, List.append_nil]
  apply List.filter_congr
  intro m hm
  rw [List.any_append, List.any_cons, List.any_nil, Bool.or_false]
  cases hmx : strictInB m x with
  | false => rw [Bool.or_false]
  | true =>
    have hmk0 : strictInB m k0 = true := by
      rw [strictInB_iff (hcanon m hm) (hcanon k0 hk0)]
      rw [strictInB_iff (hcanon m hm) hx] at hmx
      have hlen : k0.len ≤ x.len := by
        rw [IPNet.containsNet] at hk0c
        simp only [Bool.and_eq_true, decide_eq_true_eq] at hk0c
        exact hk0c.1.2
      exact ⟨containsNet_trans hk0c hmx.1, by omega⟩
    have hA : S.any (fun k => strictInB m k) = true :=
      List.any_eq_true.mpr ⟨k0, hk0, hmk0⟩
    rw [hA, Bool.true_or]

/-- Appending a block strictly inside r extends r's strict-inside set
by that block. -/
theorem childrenB_append_in (S : List IPNet) (x r : IPNet)
    (h : strictInB x r = true) :
    childrenB (S ++ [x]) r = childrenB S r ++ [x] := by
  rw [childrenB, childrenB, List.filter_append]
  simp [List.filter_cons, h]

/-- Descent insertion: when some block of T contains x, the insertion
descent of DB.AddAllocation on the canonical forest of T reaches the
deepest containing node and rebuilds the forest into the canonical
forest of T with x added, moving no host-bag entries. -/
theorem buildN_insertTL (nmf : IPNet → String)
    (atf : IPNet → List (String × String)) :
    ∀ (f : Nat) (T : List IPNet) (x : IPNet),
      (∀ n ∈ T, n.addr = n.netAddr) → T.Nodup →
      x.addr = x.netAddr → x ∉ T →
      (∃ k ∈ T, k.containsNet x = true) →
      T.length < f →
      insertTL x (nmf x) (atf x) (buildN nmf atf f T) =
        some (buildN nmf atf f (T ++ [x]), []) := by
  intro f
  induction f with
  | zero =>
    intro T x _ _ _ _ _ hf
    omega
  | succ f ih =>
    intro T x hcanon hnd hx hxT hcont hf
    obtain ⟨k0, hk0, hk0c⟩ := hcont
    obtain ⟨rs, hrs, hrsk⟩ := rootsB_cover T hcanon k0 hk0
    have hrsx : rs.containsNet x = true := containsNet_trans hrsk hk0c
    have hrsT : rs ∈ T := ((mem_rootsB T rs).mp hrs).1
    have hsub_canon : ∀ n ∈ childrenB T rs, n.addr = n.netAddr :=
      fun n hn => hcanon n ((mem_childrenB T rs n).mp hn).1
    have hsub_nd : (childrenB T rs).Nodup := hnd.filter _
    have hsub_len : (childrenB T rs).length < f := by
      have := childrenB_length_lt T rs hrsT
      omega
    have hsub_x : x ∉ childrenB T rs :=
      fun hmem => hxT ((mem_childrenB T rs x).mp hmem).1
    have hins : insertT x (nmf x) (atf x)
        (Alloc.node rs (nmf rs) (atf rs) []
          (buildN nmf atf f (childrenB T rs))) =
        (Alloc.node rs (nmf rs) (atf rs) []
          (buildN nmf atf f (childrenB T rs ++ [x])), []) := by
      rw [insertT]
      by_cases hdeep : ∃ k ∈ childrenB T rs, k.containsNet x = true
      · rw [ih (childrenB T rs) x hsub_canon hsub_nd hx hsub_x hdeep hsub_len]
      · push_neg at hdeep
        have hnone : insertTL x (nmf x) (atf x)
            (buildN nmf atf f (childrenB T rs)) = none := by
          apply insertTL_none
          intro t ht
          have htn : t.net ∈ childrenB T rs := by
            apply buildN_netsOfF_sub nmf atf f (childrenB T rs)
              (Nat.le_of_lt hsub_len)
            exact netsOfF_mem_of_mem _ t ht
          exact Bool.eq_false_iff.mpr (hdeep t.net htn)
        rw [hnone]
        dsimp only [List.filter_nil]
        rw [buildN_root_insert nmf atf f (childrenB T rs) x
          hsub_canon hsub_nd hx hsub_x
          (fun k hk => Bool.eq_false_iff.mpr (hdeep k hk)) hsub_len]
    have hrc_mem : (Alloc.node rs (nmf rs) (atf rs) []
        (buildN nmf atf f (childrenB T rs))) ∈ buildN nmf atf (f + 1) T :=
      (mem_buildN_succ nmf atf f T _).mpr ⟨rs, hrs, rfl⟩
    have hothers : ∀ a ∈ buildN nmf atf (f + 1) T,
        a ≠ (Alloc.node rs (nmf rs) (atf rs) []
          (buildN nmf atf f (childrenB T rs))) →
        a.net.containsNet x = false := by
      intro a ha hne
      obtain ⟨r, hr, rfl⟩ := (mem_buildN_succ nmf atf f T a).mp ha
      apply Bool.eq_false_iff.mpr
      intro hcx
      have hreq : r = rs := rootsB_unique_cont T hcanon x hr hrs hcx hrsx
      exact hne (by rw [hreq])
    rw [insertTL_unique x (nmf x) (atf x) (buildN nmf atf (f + 1) T)
      _ hrc_mem (buildN_nodup nmf atf f T hnd) hrsx hothers, hins]
    have hgnet : ∀ a : Alloc,
        (if a = Alloc.node rs (nmf rs) (atf rs) []
            (buildN nmf atf f (childrenB T rs))
          then Alloc.node rs (nmf rs) (atf rs) []
            (buildN nmf atf f (childrenB T rs ++ [x]))
          else a).net = a.net := by
      intro a
      by_cases ha : a = Alloc.node rs (nmf rs) (atf rs) []
          (buildN nmf atf f (childrenB T rs))
      · rw [if_pos ha, ha]
        rfl
      · rw [if_neg ha]
    have hmapped : ((rootsB T).map (fun r =>
        Alloc.node r (nmf r) (atf r) []
          (buildN nmf atf f (childrenB (T ++ [x]) r)))) =
        ((rootsB T).map ((fun a =>
          if a = Alloc.node rs (nmf rs) (atf rs) []
              (buildN nmf atf f (childrenB T rs))
            then Alloc.node rs (nmf rs) (atf rs) []
              (buildN nmf atf f (childrenB T rs ++ [x]))
            else a) ∘ (fun r =>
          Alloc.node r (nmf r) (atf r) []
            (buildN nmf atf f (childrenB T r))))) := by
      apply List.map_congr_left
      intro r hr
      show Alloc.node r (nmf r) (atf r) []
          (buildN nmf atf f (childrenB (T ++ [x]) r)) =
        (if Alloc.node r (nmf r) (atf r) []
              (buildN nmf atf f (childrenB T r)) =
            Alloc.node rs (nmf rs) (atf rs) []
              (buildN nmf atf f (childrenB T rs))
          then Alloc.node rs (nmf rs) (atf rs) []
            (buildN nmf atf f (childrenB T rs ++ [x]))
          else Alloc.node r (nmf r) (atf r) []
            (buildN nmf atf f (childrenB T r)))
      by_cases hreq : r = rs
      · subst hreq
        rw [if_pos rfl, childrenB_append_in T x r
          (strictInB_of_contains_ne hx (hcanon r hrsT) hrsx
            (by intro he; rw [← he] at hrsT; exact hxT hrsT))]
      · have hrnc : r.containsNet x = false := by
          apply Bool.eq_false_iff.mpr
          intro hcx
          exact hreq (rootsB_unique_cont T hcanon x hr hrs hcx hrsx)
        rw [if_neg (by
          intro he
          exact hreq (congrArg Alloc.net he)),
          childrenB_append_notin T x r
            (by rw [strictInB, hrnc, Bool.false_and])]
    have hB : buildN nmf atf (f + 1) (T ++ [x]) =
        sortAllocs (((rootsB T).map (fun r =>
          Alloc.node r (nmf r) (atf r) []
            (buildN nmf atf f (childrenB T r)))).map (fun a =>
          if a = Alloc.node rs (nmf rs) (atf rs) []
              (buildN nmf atf f (childrenB T rs))
            then Alloc.node rs (nmf rs) (atf rs) []
              (buildN nmf atf f (childrenB T rs ++ [x]))
            else a)) := by
      rw [buildN, rootsB_append_cont T x hcanon hx hxT hk0 hk0c, hmapped,
        ← List.map_map]
    rw [hB]
    have hperm : ((buildN nmf atf (f + 1) T).map (fun a =>
        if a = Alloc.node rs (nmf rs) (atf rs) []
            (buildN nmf atf f (childrenB T rs))
          then Alloc.node rs (nmf rs) (atf rs) []
            (buildN nmf atf f (childrenB T rs ++ [x]))
          else a)).Perm
        (sortAllocs (((rootsB T).map (fun r =>
          Alloc.node r (nmf r) (atf r) []
            (buildN nmf atf f (childrenB T r)))).map (fun a =>
          if a = Alloc.node rs (nmf rs) (atf rs) []
              (buildN nmf atf f (childrenB T rs))
            then Alloc.node rs (nmf rs) (atf rs) []
              (buildN nmf atf f (childrenB T rs ++ [x]))
            else a))) := by
      apply ((buildN_perm_map nmf atf f T).map _).trans
      rw [sortAllocs]
      exact (List.perm_insertionSort lessA _).symm
    have hlift : ∀ a b : Alloc, lessA a b →
        lessA (if a = Alloc.node rs (nmf rs) (atf rs) []
            (buildN nmf atf f (childrenB T rs))
          then Alloc.node rs (nmf rs) (atf rs) []
            (buildN nmf atf f (childrenB T rs ++ [x]))
          else a)
        (if b = Alloc.node rs (nmf rs) (atf rs) []
            (buildN nmf atf f (childrenB T rs))
          then Alloc.node rs (nmf rs) (atf rs) []
            (buildN nmf atf f (childrenB T rs ++ [x]))
          else b) := by
      intro a b hab
      show (if a = _ then _ else a).net.less
        (if b = _ then _ else b).net = true
      rw [hgnet a, hgnet b]
      exact hab
    have hcomp0 : (((rootsB T).map (fun r =>
        Alloc.node r (nmf r) (atf r) []
          (buildN nmf atf f (childrenB T r))))).Pairwise
        (fun a b => lessA a b ∨ lessA b a) :=
      List.pairwise_map.mpr (rootsB_pairwise_comp T hcanon hnd)
    have hcompm : (((rootsB T).map (fun r =>
        Alloc.node r (nmf r) (atf r) []
          (buildN nmf atf f (childrenB T r)))).map (fun a =>
        if a = Alloc.node rs (nmf rs) (atf rs) []
            (buildN nmf atf f (childrenB T rs))
          then Alloc.node rs (nmf rs) (atf rs) []
            (buildN nmf atf f (childrenB T rs ++ [x]))
          else a)).Pairwise (fun a b => lessA a b ∨ lessA b a) :=
      List.Pairwise.map _
        (fun a b hab => hab.elim (fun h => Or.inl (hlift a b h))
          (fun h => Or.inr (hlift b a h))) hcomp0
    apply congrArg some
    refine Prod.ext ?_ rfl
    show ((buildN nmf atf (f + 1) T).map (fun a =>
        if a = Alloc.node rs (nmf rs) (atf rs) []
            (buildN nmf atf f (childrenB T rs))
          then Alloc.node rs (nmf rs) (atf rs) []
            (buildN nmf atf f (childrenB T rs ++ [x]))
          else a)) = _
    apply eq_of_perm_of_pairwise lessA (fun a b h1 h2 => lessA_asymm a b h1 h2)
    · exact hperm
    · exact List.Pairwise.map _ hlift (buildN_sorted nmf atf f T hcanon hnd)
    · rw [sortAllocs]
      exact insertionSort_pairwise lessA lessA_trans _ hcompm

/-! ## C1: AddAllocation on a canonical database -/

theorem findContL_isSome (x : IPNet) :
    ∀ l : List Alloc, (∃ c ∈ l, c.net.containsNet x = true) →
      ∃ q, findContL x l = some q := by
  intro l
  induction l with
  | nil =>
    rintro ⟨c, hc, _⟩
    cases hc
  | cons t r ih =>
    rintro ⟨c, hc, hcx⟩
    rw [findContL]
    cases hft : findCont x t with
    | some q => exact ⟨q, rfl⟩
    | none =>
      rcases List.mem_cons.mp hc with rfl | hcr
      · rw [findCont_eq_none_iff] at hft
        rw [hft] at hcx
        cases hcx
      · exact ih ⟨c, hcr, hcx⟩

/-- One AddAllocation on a host-free database whose forest is canonical
for S adds the block to the canonical set: the forest becomes canonical
for S plus the block, and nothing else changes. -/
theorem addAllocation_canonical (nmf : IPNet → String)
    (atf : IPNet → List (String × String)) (s : String)
    (doms : List (String × Domain)) (hl : List (IPAddr × Nat)) (nid : Nat)
    (f : Nat) (S : List IPNet) (x : IPNet)
    (hcanon : ∀ n ∈ S, n.addr = n.netAddr) (hnd : S.Nodup)
    (hxg : goodNet x) (hxS : x ∉ S)
    (hf : S.length < f) :
    (DB.mk s (buildN nmf atf f S) [] doms hl nid).addAllocation
        (nmf x) x (atf x) =
      .ok (DB.mk s (buildN nmf atf f (S ++ [x])) [] doms hl nid) := by
  obtain ⟨hxlen, hx, hxh⟩ := hxg
  obtain ⟨f', rfl⟩ : ∃ f2, f = f2 + 1 := ⟨f - 1, by omega⟩
  rw [DB.addAllocation, if_neg (by rw [hxh]; exact Bool.false_ne_true)]
  by_cases hcont : ∃ k ∈ S, k.containsNet x = true
  · obtain ⟨k0, hk0, hk0c⟩ := hcont
    obtain ⟨rs, hrs, hrsk⟩ := rootsB_cover S hcanon k0 hk0
    have hrsx : rs.containsNet x = true := containsNet_trans hrsk hk0c
    obtain ⟨q, hq⟩ := findContL_isSome x (buildN nmf atf (f' + 1) S)
      ⟨Alloc.node rs (nmf rs) (atf rs) []
          (buildN nmf atf f' (childrenB S rs)),
        (mem_buildN_succ nmf atf f' S _).mpr ⟨rs, hrs, rfl⟩, hrsx⟩
    have hqS : q.net ∈ S := by
      apply buildN_netsOfF_sub nmf atf (f' + 1) S (by omega)
      exact subsF_net_sub _ q
        (findContL_mem_subsF _ q x hq) q.net (net_mem_netsOfT q)
    have hqne : q.net.equalNet x = false := by
      apply Bool.eq_false_iff.mpr
      intro he
      have := equalNet_eq_of_canon q.net x (hcanon q.net hqS) hx he
      rw [this] at hqS
      exact hxS hqS
    have hfa : (DB.mk s (buildN nmf atf (f' + 1) S) [] doms hl nid).findAllocation
        x false = some q := by
      rw [DB.findAllocation, hq]
      rfl
    rw [hfa]
    dsimp only
    rw [hqne]
    simp only [Bool.false_eq_true, if_false]
    rw [buildN_insertTL nmf atf (f' + 1) S x hcanon hnd hx hxS
      ⟨k0, hk0, hk0c⟩ hf]
    rfl
  · push_neg at hcont
    have hnc : ∀ k ∈ S, k.containsNet x = false :=
      fun k hk => Bool.eq_false_iff.mpr (hcont k hk)
    have hfa : (DB.mk s (buildN nmf atf (f' + 1) S) [] doms hl nid).findAllocation
        x false = none := by
      rw [DB.findAllocation]
      have hnone : findContL x (buildN nmf atf (f' + 1) S) = none := by
        apply findContL_eq_none
        intro t ht
        obtain ⟨r, hr, rfl⟩ := (mem_buildN_succ nmf atf f' S t).mp ht
        exact hnc r ((mem_rootsB S r).mp hr).1
      rw [hnone]
    rw [hfa]
    dsimp only
    have ha : adoptOrphans x [] =
        (([] : List (Nat × Host)), ([] : List (IPAddr × Nat))) := rfl
    rw [ha]
    dsimp only
    rw [buildN_root_insert nmf atf (f' + 1) S x hcanon hnd hx hxS hnc hf]

/-- Folding AddAllocation over a batch of good, distinct blocks from the
empty database produces exactly the canonical forest of the batch. -/
theorem addAllocs_canonical (nmf : IPNet → String)
    (atf : IPNet → List (String × String)) (s : String) :
    ∀ l : List IPNet, (∀ n ∈ l, goodNet n) → l.Nodup →
      addAllocs nmf atf (DB.new s) l =
        DB.mk s (buildN nmf atf (l.length + 1) l) [] [] [] 0 := by
  intro l
  induction l using List.reverseRecOn with
  | nil =>
    intro _ _
    rw [buildN_nil]
    rfl
  | append_singleton l x ih =>
    intro hg hnd
    have hgl : ∀ n ∈ l, goodNet n :=
      fun n hn => hg n (List.mem_append.mpr (Or.inl hn))
    have hndl : l.Nodup := (List.nodup_append.mp hnd).1
    have hxl : x ∉ l := by
      intro hmem
      rcases List.nodup_append.mp hnd with ⟨_, _, hdisj⟩
      exact hdisj hmem (List.mem_singleton_self x)
    have hstep := addAllocation_canonical nmf atf s [] [] 0
      (l.length + 1) l x
      (fun n hn => (hgl n hn).2.1) hndl
      (hg x (List.mem_append.mpr (Or.inr (List.mem_singleton_self x)))) hxl
      (by omega)
    have hsplit : addAllocs nmf atf (DB.new s) (l ++ [x]) =
        addAllocs nmf atf (addAllocs nmf atf (DB.new s) l) [x] := by
      rw [addAllocs, addAllocs, addAllocs, List.foldl_append]
    rw [hsplit, ih hgl hndl]
    have hone : addAllocs nmf atf
        (DB.mk s (buildN nmf atf (l.length + 1) l) [] [] [] 0) [x] =
        DB.mk s (buildN nmf atf (l.length + 1) (l ++ [x])) [] [] [] 0 := by
      rw [addAllocs, List.foldl_cons, List.foldl_nil, hstep]
    rw [hone, buildN_fuel nmf atf (l.length + 1) ((l ++ [x]).length + 1)
      (l ++ [x]) (by simp) (by simp)]

/-- The canonical forest only depends on the set of blocks, not on
their order. -/
theorem buildN_perm_inv (nmf : IPNet → String)
    (atf : IPNet → List (String × String)) :
    ∀ (f : Nat) (T1 T2 : List IPNet), T1.Perm T2 →
      (∀ n ∈ T1, n.addr = n.netAddr) → T1.Nodup → T1.length ≤ f →
      buildN nmf atf f T1 = buildN nmf atf f T2 := by
  intro f
  induction f with
  | zero =>
    intro T1 T2 hp _ _ h1
    have h2 : T1 = [] := List.length_eq_zero.mp (Nat.le_zero.mp h1)
    subst h2
    rw [← hp.nil_eq]
  | succ f ih =>
    intro T1 T2 hp hcanon hnd hlen
    have hpred : ∀ m, (T1.any (fun k => strictInB m k)) =
        (T2.any (fun k => strictInB m k)) := by
      intro m
      cases h1 : T1.any (fun k => strictInB m k) with
      | true =>
        obtain ⟨k, hk, hks⟩ := List.any_eq_true.mp h1
        exact (List.any_eq_true.mpr ⟨k, hp.subset hk, hks⟩).symm
      | false =>
        rw [List.any_eq_false] at h1
        exact (List.any_eq_false.mpr
          (fun k hk => h1 k (hp.symm.subset hk))).symm
    have hroots : (rootsB T1).Perm (rootsB T2) := by
      rw [rootsB, rootsB]
      have h2 : T2.filter (fun m => !(T2.any (fun k => strictInB m k))) =
          T2.filter (fun m => !(T1.any (fun k => strictInB m k))) :=
        List.filter_congr (fun m _ => by rw [hpred m])
      rw [h2]
      exact hp.filter _
    have hmk : ∀ r ∈ rootsB T1,
        (Alloc.node r (nmf r) (atf r) []
          (buildN nmf atf f (childrenB T1 r))) =
        (Alloc.node r (nmf r) (atf r) []
          (buildN nmf atf f (childrenB T2 r))) := by
      intro r hr
      have hrT : r ∈ T1 := ((mem_rootsB T1 r).mp hr).1
      congr 1
      apply ih (childrenB T1 r) (childrenB T2 r) (hp.filter _)
      · exact fun n hn => hcanon n ((mem_childrenB T1 r n).mp hn).1
      · exact hnd.filter _
      · have := childrenB_length_lt T1 r hrT
        omega
    rw [buildN, buildN]
    apply sortAllocs_eq_of_perm
    · rw [List.map_congr_left hmk]
      exact hroots.map _
    · exact List.pairwise_map.mpr (rootsB_pairwise_comp T1 hcanon hnd)

/-- C1: AddAllocation is insertion-order independent.  Folding the add
operation over any two permutations of a duplicate-free batch of
well-formed non-host blocks (each block carrying its own name and
attributes) from the empty database yields identical databases - in
particular identical ordered allocation forests. -/
theorem c1_addAllocation_order_invariance
    (nmf : IPNet → String) (atf : IPNet → List (String × String))
    (s : String) (l1 l2 : List IPNet) (hp : l1.Perm l2)
    (hg : ∀ n ∈ l1, goodNet n) (hnd : l1.Nodup) :
    addAllocs nmf atf (DB.new s) l1 = addAllocs nmf atf (DB.new s) l2 := by
  rw [addAllocs_canonical nmf atf s l1 hg hnd,
    addAllocs_canonical nmf atf s l2
      (fun n hn => hg n (hp.symm.subset hn)) (hp.nodup_iff.mp hnd)]
  have hlen : l2.length = l1.length := hp.length_eq.symm
  rw [hlen]
  rw [buildN_perm_inv nmf atf (l1.length + 1) l1 l2 hp
    (fun n hn => (hg n hn).2.1) hnd (by omega)]

/-- Witness for C1: 10.0.0.0/8, 10.0.0.0/16 and 192.168.0.0/24 added in
two different orders produce the same database. -/
theorem c1_addAllocation_order_invariance_witness :
    ([⟨.v4, 167772160, 8⟩, ⟨.v4, 167772160, 16⟩,
        (⟨.v4, 3232235520, 24⟩ : IPNet)].Perm
      [⟨.v4, 3232235520, 24⟩, ⟨.v4, 167772160, 16⟩, ⟨.v4, 167772160, 8⟩]) ∧
    (∀ n ∈ [(⟨.v4, 167772160, 8⟩ : IPNet), ⟨.v4, 167772160, 16⟩,
        ⟨.v4, 3232235520, 24⟩], goodNet n) ∧
    ([(⟨.v4, 167772160, 8⟩ : IPNet), ⟨.v4, 167772160, 16⟩,
        ⟨.v4, 3232235520, 24⟩].Nodup) ∧
    addAllocs (fun _ => "n") (fun _ => []) (DB.new "t")
        [⟨.v4, 167772160, 8⟩, ⟨.v4, 167772160, 16⟩, ⟨.v4, 3232235520, 24⟩] =
      addAllocs (fun _ => "n") (fun _ => []) (DB.new "t")
        [⟨.v4, 3232235520, 24⟩, ⟨.v4, 167772160, 16⟩, ⟨.v4, 167772160, 8⟩] :=
  ⟨by decide, by decide, by decide,
    c1_addAllocation_order_invariance (fun _ => "n") (fun _ => []) "t"
      [⟨.v4, 167772160, 8⟩, ⟨.v4, 167772160, 16⟩, ⟨.v4, 3232235520, 24⟩]
      [⟨.v4, 3232235520, 24⟩, ⟨.v4, 167772160, 16⟩, ⟨.v4, 167772160, 8⟩]
      (by decide) (by decide) (by decide)⟩

end Gipam
